import Mathlib

/-!
Verification of the CAMEL-AI workforce scheduling core
(`workforce_strategies.py`) against its natural-language specification.

The Python module is shallowly embedded below.  Conventions of the
embedding:

* Python `dict`s keyed by `id` strings are modelled as insertion-ordered
  association lists (`List Task`, `List Agent`); `dictGet`, `dictSet` and
  `dictDel` mirror `d[k]`, `d[k] = v` (update in place, else append) and
  `del d[k]`.
* In-place mutation of a `Task`/`Agent` object that lives in a registry is
  modelled by writing the updated record back into the registry at its id
  (`dictSet`), which is what the aliased mutation observably does.
* A Python method that can raise (`KeyError` from `d[k]`, `ValueError`
  from `list.remove`) is modelled as returning
  `Manager × Except String α`: the `Manager` component is the state as
  mutated up to the point of the raise (CPython mutates in place, so those
  effects survive a propagated exception), and `.error e` records the
  exception kind.
* Python floats produced by `successful / total` are modelled as exact
  rationals (`ℚ`); the integer counters stored in `performance_metrics`
  are modelled as `Nat`.
* `_emit_event` appends to an event log on the manager; handler delivery
  itself (the try/except loop of `_emit_event`) is modelled separately in
  the `EventBus` section, where a handler's observable behaviour is
  whether it returns normally or raises.
-/

namespace Workforce

/-- `TaskStatus` enum of the source. -/
inductive TaskStatus where
  | pending
  | in_progress
  | completed
  | failed
  | cancelled
deriving DecidableEq, Repr

/-- `AgentRole` enum of the source. -/
inductive AgentRole where
  | worker
  | supervisor
  | coordinator
  | specialist
deriving DecidableEq, Repr

/-- The `Task` dataclass.  `metadata` is only ever used for the key
`failure_reason`, so it is modelled by that single optional entry
(outer `none` = key absent, inner value = the stored reason, which is
itself optional because `fail_task`'s `reason` parameter defaults to
`None`). -/
structure Task where
  id : String
  description : String
  requirements : List String
  priority : Int := 1
  status : TaskStatus := .pending
  assigned_agent : Option String := none
  result : Option String := none
  dependencies : List String := []
  failure_reason : Option (Option String) := none
deriving DecidableEq, Repr

/-- The `performance_metrics` dict of an agent: the three keys the code
ever writes, each `none` while the key is absent. -/
structure Metrics where
  total_tasks : Option Nat := none
  successful_tasks : Option Nat := none
  success_rate : Option ℚ := none
deriving DecidableEq, Repr

/-- The `Agent` dataclass. -/
structure Agent where
  id : String
  name : String
  role : AgentRole
  capabilities : List String
  max_concurrent_tasks : Nat := 1
  current_tasks : List String := []
  performance_metrics : Metrics := {}
  is_active : Bool := true
deriving DecidableEq, Repr

/-! ### Ordered-dict primitives -/

/-- `d[k]` as a total lookup: first entry whose key is `k`. -/
def dictGet (key : α → String) (l : List α) (k : String) : Option α :=
  l.find? (fun x => key x == k)

/-- `d[k] = v`: replace the entry with `v`'s key in place, else append. -/
def dictSet (key : α → String) : List α → α → List α
  | [], v => [v]
  | x :: xs, v => if key x = key v then v :: xs else x :: dictSet key xs v

/-- `del d[k]` (unique keys): drop the entry with key `k`. -/
def dictDel (key : α → String) (l : List α) (k : String) : List α :=
  l.filter (fun x => key x != k)

/-! ### Assignment strategies

`RoundRobinStrategy` carries mutable state (`last_assigned_index`), which
lives on the strategy object shared across calls; the manager model keeps
it in the field `rrIndex`.  The other two strategies are pure. -/

/-- Which `WorkforceStrategy` subclass the manager was constructed with. -/
inductive StrategyKind where
  | roundRobin
  | capabilityBased
  | priorityBased
deriving DecidableEq, Repr

/-- `agent.performance_metrics.get('success_rate', 0.0)`. -/
def successRateOf (a : Agent) : ℚ :=
  a.performance_metrics.success_rate.getD 0

/-- Python `max(l, key=key)`: first element with maximal key
(later elements replace the current best only when strictly greater). -/
def pyMaxBy (key : α → ℚ) : List α → Option α
  | [] => none
  | x :: xs => some (xs.foldl (fun best y => if key y > key best then y else best) x)

/-- Python `min(l, key=key)`: first element with minimal key. -/
def pyMinBy (key : α → Nat) : List α → Option α
  | [] => none
  | x :: xs => some (xs.foldl (fun best y => if key y < key best then y else best) x)

/-- `RoundRobinStrategy.assign_task`: returns the chosen agent (if any)
and the new `last_assigned_index`. -/
def roundRobinAssign (last_assigned_index : Int) (available_agents : List Agent) :
    Option Agent × Int :=
  if available_agents.isEmpty then (none, last_assigned_index)
  else
    let idx := (last_assigned_index + 1).emod (available_agents.length : Int)
    (available_agents.get? idx.toNat, idx)

/-- `CapabilityBasedStrategy.assign_task`. -/
def capabilityAssign (task : Task) (available_agents : List Agent) : Option Agent :=
  let suitable_agents := available_agents.filter
    (fun agent => task.requirements.all (fun req => agent.capabilities.contains req))
  pyMaxBy successRateOf suitable_agents

/-- `PriorityBasedStrategy.assign_task`. -/
def priorityAssign (task : Task) (available_agents : List Agent) : Option Agent :=
  let suitable_agents := available_agents.filter
    (fun agent => task.requirements.all (fun req => agent.capabilities.contains req)
      && agent.current_tasks.length < agent.max_concurrent_tasks)
  pyMinBy (fun a => a.current_tasks.length) suitable_agents

/-! ### The manager state -/

/-- One emitted event: `(event_type, data)` with the payload dict as a
key/value list (`none` value = Python `None`). -/
abbrev Event := String × List (String × Option String)

/-- `WorkforceManager` state.  `events` is the log of `_emit_event`
calls (handler delivery is modelled in the `EventBus` section). -/
structure Manager where
  agents : List Agent
  tasks : List Task
  task_queue : List String
  strategy : StrategyKind
  rrIndex : Int
  events : List Event
deriving DecidableEq, Repr

/-- `WorkforceManager.__init__` (fresh registries, round-robin cursor
`-1`, empty handler/event state). -/
def mkManager (strategy : StrategyKind) : Manager :=
  { agents := [], tasks := [], task_queue := [], strategy := strategy
    rrIndex := -1, events := [] }

/-- A task as the `Task` dataclass constructor builds it at submission
time: status `PENDING`, no assigned agent, no result, empty metadata. -/
def mkTask (id description : String) (requirements : List String)
    (priority : Int) (dependencies : List String) : Task :=
  { id := id, description := description, requirements := requirements
    priority := priority, dependencies := dependencies }

/-- An agent as the `Agent` dataclass constructor builds it at
registration time: no current tasks, empty metrics. -/
def mkAgent (id name : String) (role : AgentRole) (capabilities : List String)
    (max_concurrent_tasks : Nat) (is_active : Bool) : Agent :=
  { id := id, name := name, role := role, capabilities := capabilities
    max_concurrent_tasks := max_concurrent_tasks, is_active := is_active }

/-- `_emit_event` as seen by the manager: append to the event log
(the try/except delivery loop never lets a handler fault escape, so the
manager state is otherwise unaffected; see `runHandlers` below). -/
def _emit_event (m : Manager) (event_type : String)
    (data : List (String × Option String)) : Manager :=
  { m with events := m.events ++ [(event_type, data)] }

/-- `register_agent`. -/
def register_agent (m : Manager) (agent : Agent) : Manager :=
  _emit_event { m with agents := dictSet Agent.id m.agents agent }
    "agent_registered" [("agent_id", some agent.id)]

/-- `_get_available_agents`. -/
def _get_available_agents (m : Manager) : List Agent :=
  m.agents.filter
    (fun agent => agent.is_active
      && agent.current_tasks.length < agent.max_concurrent_tasks)

/-- `self.strategy.assign_task(task, available_agents)` dispatched on the
manager's strategy; also returns the round-robin cursor after the call. -/
def assign_strategy (m : Manager) (task : Task) (available_agents : List Agent) :
    Option Agent × Int :=
  match m.strategy with
  | .roundRobin => roundRobinAssign m.rrIndex available_agents
  | .capabilityBased => (capabilityAssign task available_agents, m.rrIndex)
  | .priorityBased => (priorityAssign task available_agents, m.rrIndex)

/-- `_assign_task_to_agent`: mutates the task (status, back-reference)
and the agent (`current_tasks.append`), and emits `task_assigned`. -/
def _assign_task_to_agent (m : Manager) (task : Task) (agent : Agent) : Manager :=
  let task := { task with assigned_agent := some agent.id, status := .in_progress }
  let agent := { agent with current_tasks := agent.current_tasks ++ [task.id] }
  _emit_event
    { m with tasks := dictSet Task.id m.tasks task
             agents := dictSet Agent.id m.agents agent }
    "task_assigned" [("task_id", some task.id), ("agent_id", some agent.id)]

/-- The `for task_id in self.task_queue` loop of `_process_task_queue`:
walks a snapshot of the queue, assigning pending tasks the strategy finds
an agent for, and accumulates `processed_tasks`.  `self.tasks[task_id]`
raises `KeyError` when the id is unknown. -/
def process_queue_go (m : Manager) :
    List String → List String → (Manager × List String) × Except String Unit
  | [], processed_tasks => ((m, processed_tasks), .ok ())
  | task_id :: rest, processed_tasks =>
    match dictGet Task.id m.tasks task_id with
    | none => ((m, processed_tasks), .error "KeyError")
    | some task =>
      if task.status ≠ TaskStatus.pending then
        process_queue_go m rest (processed_tasks ++ [task_id])
      else
        let available_agents := _get_available_agents m
        let picked := assign_strategy m task available_agents
        let m := { m with rrIndex := picked.2 }
        match picked.1 with
        | some assigned_agent =>
          process_queue_go (_assign_task_to_agent m task assigned_agent) rest
            (processed_tasks ++ [task_id])
        | none => process_queue_go m rest processed_tasks

/-- The removal loop at the end of `_process_task_queue`:
`for task_id in processed_tasks: self.task_queue.remove(task_id)`.
`list.remove` raises `ValueError` when the element is absent. -/
def removeAll (l : List String) : List String → Except String (List String)
  | [] => .ok l
  | x :: xs => if x ∈ l then removeAll (l.erase x) xs else .error "ValueError"

/-- `_process_task_queue`. -/
def _process_task_queue (m : Manager) : Manager × Except String Unit :=
  match process_queue_go m m.task_queue [] with
  | ((m, _), .error e) => (m, .error e)
  | ((m, processed_tasks), .ok _) =>
    match removeAll m.task_queue processed_tasks with
    | .error e => (m, .error e)
    | .ok q => ({ m with task_queue := q }, .ok ())

/-- `submit_task`, split at the point just before the final
`_process_task_queue` call: the admission gate, the registry/queue
insertion and the `task_submitted` emission.  Returns `none` when the
dependency gate rejects the task. -/
def submit_task_store (m : Manager) (task : Task) : Option Manager :=
  if task.dependencies.all (fun dep_id =>
      match dictGet Task.id m.tasks dep_id with
      | some dep => dep.status == TaskStatus.completed
      | none => false) then
    some (_emit_event
      { m with tasks := dictSet Task.id m.tasks task
               task_queue := m.task_queue ++ [task.id] }
      "task_submitted" [("task_id", some task.id)])
  else none

/-- `submit_task`. -/
def submit_task (m : Manager) (task : Task) : Manager × Except String Bool :=
  match submit_task_store m task with
  | none => (m, .ok false)
  | some m =>
    match _process_task_queue m with
    | (m, .error e) => (m, .error e)
    | (m, .ok _) => (m, .ok true)

/-- `_update_agent_metrics`.  (If `total_tasks` is absent both counters
are initialised to `0` first; afterwards both keys are always present, so
the reads below are total in every state this module can produce.) -/
def _update_agent_metrics (agent : Agent) (success : Bool) : Agent :=
  let pm := agent.performance_metrics
  let pm := if pm.total_tasks = none then
      { pm with total_tasks := some 0, successful_tasks := some 0 }
    else pm
  let total := pm.total_tasks.getD 0 + 1
  let successful := pm.successful_tasks.getD 0 + (if success then 1 else 0)
  let success_rate : ℚ := if total > 0 then (successful : ℚ) / (total : ℚ) else 0
  { agent with performance_metrics :=
      { total_tasks := some total, successful_tasks := some successful
        success_rate := some success_rate } }

/-- The block shared by `complete_task` and `fail_task` that detaches the
finished task from its agent and updates the metrics:
`agent = self.agents[task.assigned_agent]` raises `KeyError` when the
recorded agent is gone; `agent.current_tasks.remove(task_id)` raises
`ValueError` when the id is not in the list. -/
def detach_from_agent (m : Manager) (task_id : String)
    (assigned_agent : Option String) (success : Bool) : Manager × Except String Unit :=
  match assigned_agent with
  | none => (m, .ok ())
  | some agent_id =>
    match dictGet Agent.id m.agents agent_id with
    | none => (m, .error "KeyError")
    | some agent =>
      if task_id ∈ agent.current_tasks then
        let agent := { agent with current_tasks := agent.current_tasks.erase task_id }
        let agent := _update_agent_metrics agent success
        ({ m with agents := dictSet Agent.id m.agents agent }, .ok ())
      else (m, .error "ValueError")

/-- `_process_dependent_tasks`: one pass over `self.tasks.values()`, in
registry order, appending to the queue each still-pending dependent that
is not already queued and whose dependencies present in the registry are
all completed (`if dep_id in self.tasks` skips absent ids). -/
def _process_dependent_tasks (m : Manager) (completed_task_id : String) : Manager :=
  { m with task_queue := m.tasks.foldl (fun q task =>
      if completed_task_id ∈ task.dependencies
          ∧ task.status = TaskStatus.pending
          ∧ task.id ∉ q then
        if task.dependencies.all (fun dep_id =>
            match dictGet Task.id m.tasks dep_id with
            | some dep => dep.status == TaskStatus.completed
            | none => true) then
          q ++ [task.id]
        else q
      else q) m.task_queue }

/-- `complete_task`. -/
def complete_task (m : Manager) (task_id : String) (result : Option String) :
    Manager × Except String Bool :=
  match dictGet Task.id m.tasks task_id with
  | none => (m, .ok false)
  | some task =>
    if task.status ≠ TaskStatus.in_progress then (m, .ok false)
    else
      let task' := { task with status := .completed, result := result }
      let m := { m with tasks := dictSet Task.id m.tasks task' }
      match detach_from_agent m task_id task.assigned_agent true with
      | (m, .error e) => (m, .error e)
      | (m, .ok _) =>
        let m := _emit_event m "task_completed" [("task_id", some task_id)]
        let m := _process_dependent_tasks m task_id
        match _process_task_queue m with
        | (m, .error e) => (m, .error e)
        | (m, .ok _) => (m, .ok true)

/-- `fail_task`.  Note: unlike `complete_task` it neither scans
dependents nor runs `_process_task_queue`. -/
def fail_task (m : Manager) (task_id : String) (reason : Option String) :
    Manager × Except String Bool :=
  match dictGet Task.id m.tasks task_id with
  | none => (m, .ok false)
  | some task =>
    if task.status ≠ TaskStatus.in_progress then (m, .ok false)
    else
      let task' := { task with status := .failed, failure_reason := some reason }
      let m := { m with tasks := dictSet Task.id m.tasks task' }
      match detach_from_agent m task_id task.assigned_agent false with
      | (m, .error e) => (m, .error e)
      | (m, .ok _) =>
        (_emit_event m "task_failed" [("task_id", some task_id), ("reason", reason)],
          .ok true)

/-- `_reassign_task`: `self.tasks[task_id]` raises `KeyError` for an
unknown id; removing the id from the recorded agent's list can raise; on
the normal path the task is cleared, set back to pending and appended to
the queue. -/
def _reassign_task (m : Manager) (task_id : String) : Manager × Except String Unit :=
  match dictGet Task.id m.tasks task_id with
  | none => (m, .error "KeyError")
  | some task =>
    let step : Manager × Except String Unit :=
      match task.assigned_agent with
      | none => (m, .ok ())
      | some agent_id =>
        match dictGet Agent.id m.agents agent_id with
        | none => (m, .error "KeyError")
        | some agent =>
          if task_id ∈ agent.current_tasks then
            let agent := { agent with
              current_tasks := agent.current_tasks.erase task_id }
            ({ m with agents := dictSet Agent.id m.agents agent }, .ok ())
          else (m, .error "ValueError")
    match step with
    | (m, .error e) => (m, .error e)
    | (m, .ok _) =>
      let task := { task with assigned_agent := none, status := .pending }
      ({ m with tasks := dictSet Task.id m.tasks task
                task_queue := m.task_queue ++ [task_id] }, .ok ())

/-- The `for task_id in agent.current_tasks` loop of `remove_agent`.
CPython's list iterator keeps an index `i` into the *live* list object,
and `_reassign_task` removes elements from that same list (the agent's
`current_tasks` is aliased), so the loop re-reads the agent's current
list from the registry at every step and advances the index — this is
exactly the iterate-while-mutating behaviour of the source.  `fuel` is
the initial list length, an upper bound on the number of iterations
(`_reassign_task` never lengthens the list, and never removes the agent,
so the `none` lookup branch is unreachable from `remove_agent`). -/
def remove_agent_go (agent_id : String) :
    Nat → Nat → Manager → Manager × Except String Unit
  | _, 0, m => (m, .ok ())
  | i, fuel + 1, m =>
    match dictGet Agent.id m.agents agent_id with
    | none => (m, .error "KeyError")
    | some agent =>
      if h : i < agent.current_tasks.length then
        match _reassign_task m (agent.current_tasks.get ⟨i, h⟩) with
        | (m, .error e) => (m, .error e)
        | (m, .ok _) => remove_agent_go agent_id (i + 1) fuel m
      else (m, .ok ())

/-- `remove_agent`. -/
def remove_agent (m : Manager) (agent_id : String) : Manager × Except String Bool :=
  match dictGet Agent.id m.agents agent_id with
  | none => (m, .ok false)
  | some agent =>
    match remove_agent_go agent_id 0 agent.current_tasks.length m with
    | (m, .error e) => (m, .error e)
    | (m, .ok _) =>
      let m := { m with agents := dictDel Agent.id m.agents agent_id }
      (_emit_event m "agent_removed" [("agent_id", some agent_id)], .ok true)

/-! ### Reachability

States produced by sequences of public operations, starting from a fresh
manager.  `register_agent` and `submit_task` build their argument with
the dataclass constructors (`mkAgent` / `mkTask`), matching every use in
the repository: agents are registered fresh and tasks are "created
Pending at submission time".  Since CPython mutates the manager in place,
the state a raising call leaves behind is also reachable (a caller can
catch the exception and continue), so each constructor keeps the state
component regardless of the result. -/
inductive Reachable : Manager → Prop where
  | init (strategy : StrategyKind) : Reachable (mkManager strategy)
  | register {m} (h : Reachable m) (id name : String) (role : AgentRole)
      (capabilities : List String) (max_concurrent_tasks : Nat) (is_active : Bool) :
      Reachable (register_agent m (mkAgent id name role capabilities
        max_concurrent_tasks is_active))
  | remove {m} (h : Reachable m) (agent_id : String) :
      Reachable (remove_agent m agent_id).1
  | submit {m} (h : Reachable m) (id description : String)
      (requirements : List String) (priority : Int) (dependencies : List String) :
      Reachable (submit_task m (mkTask id description requirements priority
        dependencies)).1
  | complete {m} (h : Reachable m) (task_id : String) (result : Option String) :
      Reachable (complete_task m task_id result).1
  | fail {m} (h : Reachable m) (task_id : String) (reason : Option String) :
      Reachable (fail_task m task_id reason).1

/-! ### Event delivery (`add_event_handler` / `_emit_event` internals)

Handlers are arbitrary Python callables; the bus stores them per event
type and `_emit_event` invokes each inside `try/except`, so a raising
handler is logged and delivery continues.  In the embedding a handler is
named by a `Nat` token; its observable behaviour on an event — returning
normally or raising — is an arbitrary function `HandlerBehavior` the
theorems quantify over.  `emit_trace` returns the sequence of
invocations `(handler, outcome)` the `for` loop of `_emit_event`
performs; the loop itself never propagates an outcome. -/

/-- What each named handler does when called with an event: `.ok` for a
normal return, `.error msg` for a raised exception. -/
def HandlerBehavior := Nat → Event → Except String Unit

/-- The `event_handlers` dict: event type → registered handlers in
registration order. -/
structure EventBus where
  event_handlers : List (String × List Nat)
deriving DecidableEq, Repr

/-- `add_event_handler`: create the empty list for a new event type,
then append the handler. -/
def add_event_handler (b : EventBus) (event_type : String) (handler : Nat) :
    EventBus :=
  let entry := (dictGet Prod.fst b.event_handlers event_type).map Prod.snd
  { b with event_handlers :=
      dictSet Prod.fst b.event_handlers (event_type, entry.getD [] ++ [handler]) }

/-- The `for handler in self.event_handlers[event_type]` loop: each
handler is called inside `try/except Exception`, so the loop records the
outcome and continues regardless. -/
def runHandlers (beh : HandlerBehavior) (ev : Event) :
    List Nat → List (Nat × Except String Unit)
  | [] => []
  | h :: rest => (h, beh h ev) :: runHandlers beh ev rest

/-- The invocations performed by `_emit_event(event_type, data)`:
nothing if the event type has no entry, otherwise one call per
registered handler, in order. -/
def emit_trace (b : EventBus) (beh : HandlerBehavior) (event_type : String)
    (data : List (String × Option String)) : List (Nat × Except String Unit) :=
  match dictGet Prod.fst b.event_handlers event_type with
  | none => []
  | some entry => runHandlers beh (event_type, data) entry.2

/-! ### Metrics recording (for the per-agent counters claim) -/

/-- A sequence of `_update_agent_metrics` calls on one agent, one per
completion (`true`) or failure (`false`), in the order the
`complete_task` / `fail_task` calls happened. -/
def record_outcomes (agent : Agent) (outcomes : List Bool) : Agent :=
  outcomes.foldl _update_agent_metrics agent

/-! ### Concrete scenario states used by counterexamples and witnesses -/

/-- Capability-based manager with one agent `a1` of capacity 2 holding
the two in-progress tasks `t1`, `t2` (in that order). -/
def mgr0 : Manager := mkManager .capabilityBased

def mA1 : Manager :=
  register_agent mgr0 (mkAgent "a1" "Alice" .worker ["x"] 2 true)

def mT1 : Manager := (submit_task mA1 (mkTask "t1" "first" ["x"] 1 [])).1

def mT2 : Manager := (submit_task mT1 (mkTask "t2" "second" ["x"] 1 [])).1

/-- The state `remove_agent("a1")` leaves behind from `mT2`. -/
def mRemoved : Manager := (remove_agent mT2 "a1").1

/-- Capability-based manager with one agent `b1` of capacity 1. -/
def nB : Manager :=
  register_agent (mkManager .capabilityBased) (mkAgent "b1" "Bob" .worker ["x"] 1 true)

/-- `b1` holding the in-progress task `u1`. -/
def nU1 : Manager := (submit_task nB (mkTask "u1" "only" ["x"] 1 [])).1

/-- `u1` completed (so its registry entry is terminal). -/
def nDone : Manager := (complete_task nU1 "u1" none).1

/-- `u1` in progress and a second task `u2` waiting in the queue. -/
def nQueued : Manager := (submit_task nU1 (mkTask "u2" "queued" ["x"] 1 [])).1

/-- Re-submission of a task bearing the already-completed id `u1`. -/
def nResub : Manager := (submit_task nDone (mkTask "u1" "again" ["x"] 1 [])).1

/-- Artificial state for the dependent-unblocking claim: agent `w1`
holds the in-progress task `tx`; `ty` depends on `tx`, is pending and is
not in the queue. -/
def c6Agent : Agent :=
  { id := "w1", name := "W", role := .worker, capabilities := ["x"]
    max_concurrent_tasks := 1, current_tasks := ["tx"] }

def c6X : Task :=
  { id := "tx", description := "x", requirements := ["x"]
    status := .in_progress, assigned_agent := some "w1" }

def c6Y : Task :=
  { id := "ty", description := "y", requirements := ["x"], dependencies := ["tx"] }

def c6M : Manager :=
  { agents := [c6Agent], tasks := [c6X, c6Y], task_queue := []
    strategy := .capabilityBased, rrIndex := -1, events := [] }

/-- The registry value of `u1` while `b1` holds it. -/
def u1Assigned : Task :=
  { id := "u1", description := "only", requirements := ["x"]
    status := .in_progress, assigned_agent := some "b1" }

/-- The registry value of `u1` after `complete_task("u1")`: terminal, yet
still carrying the last `assigned_agent`. -/
def u1Completed : Task :=
  { id := "u1", description := "only", requirements := ["x"]
    status := .completed, assigned_agent := some "b1" }

/-- The registry value of the queued task `u2` in `nQueued`. -/
def u2Stored : Task := mkTask "u2" "queued" ["x"] 1 []

/-- The registry value of `t2` after `remove_agent("a1")` on `mT2`:
still in progress, still pointing at the deleted agent. -/
def t2Orphan : Task :=
  { id := "t2", description := "second", requirements := ["x"]
    status := .in_progress, assigned_agent := some "a1" }

/-- The registry value of agent `a1` in `mT2`: capacity 2, holding both
tasks. -/
def a1Loaded : Agent :=
  { id := "a1", name := "Alice", role := .worker, capabilities := ["x"]
    max_concurrent_tasks := 2, current_tasks := ["t1", "t2"] }

/-- Demonstration bus: handlers 0 and 1 subscribed to `task_failed`,
handler 2 to another kind. -/
def demoBus : EventBus :=
  add_event_handler (add_event_handler (add_event_handler ⟨[]⟩ "task_failed" 0)
    "task_failed" 1) "task_completed" 2

/-- Demonstration behaviour: handler 0 raises, every other handler
returns normally. -/
def demoBeh : HandlerBehavior :=
  fun h _ => if h = 0 then .error "boom" else .ok ()

/-- The `tx` entry as `complete_task` rewrites it. -/
def c6XDone : Task := { c6X with status := .completed, result := none }

/-- The registry state of the C6 scenario right after the completion
update to `tx`. -/
def c6M1 : Manager := { c6M with tasks := dictSet Task.id c6M.tasks c6XDone }

/-- The C6 scenario after detaching `tx` from `w1`. -/
def c6m2 : Manager := (detach_from_agent c6M1 "tx" c6X.assigned_agent true).1

/-- The C6 scenario after the dependent-processing step: `ty` has been
enqueued. -/
def c6mD : Manager :=
  _process_dependent_tasks
    (_emit_event c6m2 "task_completed" [("task_id", some "tx")]) "tx"

/-! ## Lemmas about the ordered-dict primitives -/

theorem dictGet_key {key : α → String} {l : List α} {k : String} {x : α}
    (h : dictGet key l k = some x) : key x = k := by
  have hp := List.find?_some h
  exact eq_of_beq hp

theorem dictGet_mem {key : α → String} {l : List α} {k : String} {x : α}
    (h : dictGet key l k = some x) : x ∈ l :=
  List.mem_of_find?_eq_some h

theorem dictGet_dictSet_self (key : α → String) (l : List α) (v : α) :
    dictGet key (dictSet key l v) (key v) = some v := by
  induction l with
  | nil => simp [dictGet, dictSet]
  | cons x xs ih =>
    unfold dictSet
    by_cases h : key x = key v
    · simp [dictGet, h]
    · simp only [if_neg h]
      simpa [dictGet, List.find?_cons, beq_eq_false_iff_ne, h] using ih

theorem dictGet_dictSet_ne (key : α → String) (l : List α) (v : α) {k : String}
    (h : k ≠ key v) : dictGet key (dictSet key l v) k = dictGet key l k := by
  have hv : (key v == k) = false := beq_eq_false_iff_ne.mpr (Ne.symm h)
  induction l with
  | nil => simp [dictGet, dictSet, List.find?_cons, hv]
  | cons x xs ih =>
    unfold dictSet
    by_cases hx : key x = key v
    · have hxk : (key x == k) = false := by rw [hx]; exact hv
      simp [if_pos hx, dictGet, List.find?_cons, hv, hxk]
    · simp only [if_neg hx]
      cases hxk : (key x == k) with
      | true => simp [dictGet, List.find?_cons, hxk]
      | false =>
        simp only [dictGet, List.find?_cons, hxk] at ih ⊢
        exact ih

theorem mem_dictSet {key : α → String} {l : List α} {v x : α}
    (h : x ∈ dictSet key l v) : x ∈ l ∨ x = v := by
  induction l with
  | nil => simpa [dictSet] using h
  | cons y ys ih =>
    unfold dictSet at h
    by_cases hy : key y = key v
    · rw [if_pos hy] at h
      rcases List.mem_cons.mp h with h | h
      · exact Or.inr h
      · exact Or.inl (List.mem_cons_of_mem _ h)
    · rw [if_neg hy] at h
      rcases List.mem_cons.mp h with h | h
      · exact Or.inl (h ▸ List.mem_cons_self _ _)
      · rcases ih h with h | h
        · exact Or.inl (List.mem_cons_of_mem _ h)
        · exact Or.inr h

theorem mem_dictSet_of_mem {key : α → String} {l : List α} {v x : α}
    (hx : x ∈ l) (h : key x ≠ key v) : x ∈ dictSet key l v := by
  induction l with
  | nil => cases hx
  | cons y ys ih =>
    unfold dictSet
    by_cases hy : key y = key v
    · rw [if_pos hy]
      rcases List.mem_cons.mp hx with rfl | hx
      · exact absurd hy h
      · exact List.mem_cons_of_mem _ hx
    · rw [if_neg hy]
      rcases List.mem_cons.mp hx with rfl | hx
      · exact List.mem_cons_self _ _
      · exact List.mem_cons_of_mem _ (ih hx)

theorem dictGet_isSome_dictSet (key : α → String) (l : List α) (v : α) (k : String)
    (h : (dictGet key l k).isSome) : (dictGet key (dictSet key l v) k).isSome := by
  by_cases hk : k = key v
  · rw [hk, dictGet_dictSet_self]; rfl
  · rw [dictGet_dictSet_ne key l v hk]; exact h

theorem mem_dictDel {key : α → String} {l : List α} {k : String} {x : α}
    (h : x ∈ dictDel key l k) : x ∈ l :=
  (List.mem_filter.mp h).1

/-! ## List helper lemmas -/

theorem foldl_choice_mem (f : α → α → α) (hf : ∀ a b, f a b = a ∨ f a b = b) :
    ∀ (xs : List α) (x : α), xs.foldl f x ∈ x :: xs := by
  intro xs
  induction xs with
  | nil => intro x; exact List.mem_singleton.mpr rfl
  | cons y ys ih =>
    intro x
    have h := ih (f x y)
    rcases List.mem_cons.mp h with h | h
    · simp only [List.foldl_cons]
      rw [h]
      rcases hf x y with hxy | hxy
      · rw [hxy]; exact List.mem_cons_self _ _
      · rw [hxy]; exact List.mem_cons_of_mem _ (List.mem_cons_self _ _)
    · simp only [List.foldl_cons]
      exact List.mem_cons_of_mem _ (List.mem_cons_of_mem _ h)

theorem pyMaxBy_mem {key : α → ℚ} {l : List α} {a : α}
    (h : pyMaxBy key l = some a) : a ∈ l := by
  cases l with
  | nil => cases h
  | cons x xs =>
    simp only [pyMaxBy, Option.some.injEq] at h
    have hmem := foldl_choice_mem (fun best y => if key y > key best then y else best)
      (fun b y => by by_cases hc : key y > key b <;> simp [hc]) xs x
    rw [h] at hmem
    exact hmem

theorem pyMinBy_mem {key : α → Nat} {l : List α} {a : α}
    (h : pyMinBy key l = some a) : a ∈ l := by
  cases l with
  | nil => cases h
  | cons x xs =>
    simp only [pyMinBy, Option.some.injEq] at h
    have hmem := foldl_choice_mem (fun best y => if key y < key best then y else best)
      (fun b y => by by_cases hc : key y < key b <;> simp [hc]) xs x
    rw [h] at hmem
    exact hmem

theorem removeAll_sub {xs : List String} :
    ∀ {l r : List String}, removeAll l xs = .ok r → ∀ y ∈ r, y ∈ l := by
  induction xs with
  | nil =>
    intro l r h y hy
    simp only [removeAll] at h
    cases h
    exact hy
  | cons x xs ih =>
    intro l r h y hy
    simp only [removeAll] at h
    by_cases hx : x ∈ l
    · rw [if_pos hx] at h
      exact (List.erase_sublist x l).subset (ih h y hy)
    · rw [if_neg hx] at h
      cases h

theorem removeAll_ok_of_sublist {xs l : List String} (h : List.Sublist xs l) :
    ∃ r, removeAll l xs = .ok r := by
  induction xs generalizing l with
  | nil => exact ⟨l, rfl⟩
  | cons x xs ih =>
    have hx : x ∈ l := h.subset (List.mem_cons_self _ _)
    have hxs : List.Sublist xs (l.erase x) := by
      have := h.erase x
      rwa [List.erase_cons_head] at this
    rcases ih hxs with ⟨r, hr⟩
    exact ⟨r, by simp only [removeAll, if_pos hx]; exact hr⟩

theorem removeAll_mem_of_not_mem {xs : List String} :
    ∀ {l r : List String}, removeAll l xs = .ok r → ∀ y ∈ l, y ∉ xs → y ∈ r := by
  induction xs with
  | nil =>
    intro l r h y hy _
    simp only [removeAll] at h
    cases h
    exact hy
  | cons x xs ih =>
    intro l r h y hy hne
    simp only [removeAll] at h
    by_cases hx : x ∈ l
    · rw [if_pos hx] at h
      have hyx : y ≠ x := fun hh => hne (hh ▸ List.mem_cons_self _ _)
      exact ih h y (List.mem_erase_of_ne hyx |>.mpr hy)
        (fun hh => hne (List.mem_cons_of_mem _ hh))
    · rw [if_neg hx] at h
      cases h

/-! ## Strategy facts -/

theorem roundRobinAssign_mem {rr : Int} {l : List Agent} {a : Agent}
    (h : (roundRobinAssign rr l).1 = some a) : a ∈ l := by
  unfold roundRobinAssign at h
  by_cases he : l.isEmpty
  · rw [if_pos he] at h; cases h
  · rw [if_neg he] at h
    exact List.get?_mem h

theorem capabilityAssign_mem {t : Task} {l : List Agent} {a : Agent}
    (h : capabilityAssign t l = some a) : a ∈ l := by
  unfold capabilityAssign at h
  exact (List.mem_filter.mp (pyMaxBy_mem h)).1

theorem priorityAssign_mem {t : Task} {l : List Agent} {a : Agent}
    (h : priorityAssign t l = some a) : a ∈ l := by
  unfold priorityAssign at h
  exact (List.mem_filter.mp (pyMinBy_mem h)).1

theorem assign_strategy_mem {m : Manager} {t : Task} {l : List Agent} {a : Agent}
    (h : (assign_strategy m t l).1 = some a) : a ∈ l := by
  unfold assign_strategy at h
  cases hs : m.strategy <;> rw [hs] at h
  · exact roundRobinAssign_mem h
  · exact capabilityAssign_mem h
  · exact priorityAssign_mem h

theorem mem_available {m : Manager} {a : Agent} (h : a ∈ _get_available_agents m) :
    a ∈ m.agents ∧ a.current_tasks.length < a.max_concurrent_tasks := by
  have h' := List.mem_filter.mp h
  refine ⟨h'.1, ?_⟩
  have := h'.2
  simp only [Bool.and_eq_true, decide_eq_true_eq] at this
  exact this.2

/-! ## The reachable-state invariant

`TaskOk` is the part of the specification's task invariant that the code
actually maintains: an in-progress task always records an agent, and a
pending task never does.  (The full specified bi-implication fails: the
completion and failure paths do not clear `assigned_agent`, see the
counterexample for the corresponding claim.)  `Inv` adds the agent
capacity bound and the fact that every queued id exists in the task
registry. -/

def TaskOk (t : Task) : Prop :=
  (t.status = TaskStatus.in_progress → t.assigned_agent ≠ none) ∧
  (t.status = TaskStatus.pending → t.assigned_agent = none)

def Inv (m : Manager) : Prop :=
  (∀ t ∈ m.tasks, TaskOk t) ∧
  (∀ a ∈ m.agents, a.current_tasks.length ≤ a.max_concurrent_tasks) ∧
  (∀ tid ∈ m.task_queue, (dictGet Task.id m.tasks tid).isSome)

theorem inv_emit {m : Manager} (h : Inv m) (e : String)
    (d : List (String × Option String)) : Inv (_emit_event m e d) := h

theorem inv_register {m : Manager} (h : Inv m) (id name : String) (role : AgentRole)
    (capabilities : List String) (mx : Nat) (act : Bool) :
    Inv (register_agent m (mkAgent id name role capabilities mx act)) := by
  obtain ⟨h1, h2, h3⟩ := h
  refine ⟨h1, ?_, h3⟩
  intro a ha
  rcases mem_dictSet ha with ha | rfl
  · exact h2 a ha
  · simp [mkAgent]

theorem inv_assign {m : Manager} (h : Inv m) (t : Task) {a : Agent}
    (hcap : a.current_tasks.length < a.max_concurrent_tasks) :
    Inv (_assign_task_to_agent m t a) := by
  obtain ⟨h1, h2, h3⟩ := h
  unfold _assign_task_to_agent
  refine ⟨?_, ?_, ?_⟩
  · intro u hu
    rcases mem_dictSet hu with hu | rfl
    · exact h1 u hu
    · exact ⟨fun _ => by simp, fun hp => by cases hp⟩
  · intro b hb
    rcases mem_dictSet hb with hb | rfl
    · exact h2 b hb
    · simpa using hcap
  · intro tid htid
    exact dictGet_isSome_dictSet _ _ _ _ (h3 tid htid)

theorem inv_process_queue_go {m : Manager} (h : Inv m) :
    ∀ (q acc : List String), Inv ((process_queue_go m q acc).1.1) := by
  intro q
  induction q generalizing m with
  | nil => intro acc; exact h
  | cons tid rest ih =>
    intro acc
    cases hget : dictGet Task.id m.tasks tid with
    | none => simp only [process_queue_go, hget]; exact h
    | some task =>
      by_cases hst : task.status ≠ TaskStatus.pending
      · simp only [process_queue_go, hget, if_pos hst]
        exact ih h _
      · simp only [process_queue_go, hget, if_neg hst]
        cases hpick : (assign_strategy m task (_get_available_agents m)).1 with
        | some ag =>
          simp only [hpick]
          have hm' : Inv { m with rrIndex :=
              (assign_strategy m task (_get_available_agents m)).2 } := h
          have hmem := assign_strategy_mem hpick
          have hcap := (mem_available hmem).2
          exact ih (inv_assign hm' task hcap) _
        | none =>
          simp only [hpick]
          have hm' : Inv { m with rrIndex :=
              (assign_strategy m task (_get_available_agents m)).2 } := h
          exact ih hm' _

theorem tasks_process_task_queue (m : Manager) :
    ((_process_task_queue m).1).tasks = ((process_queue_go m m.task_queue []).1.1).tasks := by
  unfold _process_task_queue
  rcases hgo : process_queue_go m m.task_queue [] with ⟨⟨m', processed⟩, res⟩
  cases res with
  | error e => rfl
  | ok u =>
    cases u
    dsimp only
    cases hrm : removeAll m'.task_queue processed with
    | error e => rfl
    | ok q => rfl

theorem agents_process_task_queue (m : Manager) :
    ((_process_task_queue m).1).agents = ((process_queue_go m m.task_queue []).1.1).agents := by
  unfold _process_task_queue
  rcases hgo : process_queue_go m m.task_queue [] with ⟨⟨m', processed⟩, res⟩
  cases res with
  | error e => rfl
  | ok u =>
    cases u
    dsimp only
    cases hrm : removeAll m'.task_queue processed with
    | error e => rfl
    | ok q => rfl

theorem queue_process_queue_go_eq (m : Manager) :
    ∀ q acc, ((process_queue_go m q acc).1.1).task_queue = m.task_queue := by
  intro q
  induction q generalizing m with
  | nil => intro acc; rfl
  | cons tid rest ih =>
    intro acc
    cases hget : dictGet Task.id m.tasks tid with
    | none => simp only [process_queue_go, hget]
    | some task =>
      by_cases hst : task.status ≠ TaskStatus.pending
      · simp only [process_queue_go, hget, if_pos hst]; exact ih _ _
      · simp only [process_queue_go, hget, if_neg hst]
        cases hpick : (assign_strategy m task (_get_available_agents m)).1 with
        | some ag => simp only [hpick]; exact ih _ _
        | none => simp only [hpick]; exact ih _ _

theorem inv_process_task_queue {m : Manager} (h : Inv m) :
    Inv ((_process_task_queue m).1) := by
  have hgo := inv_process_queue_go h m.task_queue []
  unfold _process_task_queue
  rcases hgoeq : process_queue_go m m.task_queue [] with ⟨⟨m', processed⟩, res⟩
  rw [hgoeq] at hgo
  cases res with
  | error e => exact hgo
  | ok u =>
    cases u
    dsimp only
    cases hrm : removeAll m'.task_queue processed with
    | error e => exact hgo
    | ok q =>
      obtain ⟨h1, h2, h3⟩ := hgo
      refine ⟨h1, h2, ?_⟩
      intro tid htid
      exact h3 tid (removeAll_sub hrm tid htid)

theorem current_tasks_update_metrics (a : Agent) (s : Bool) :
    (_update_agent_metrics a s).current_tasks = a.current_tasks := rfl

theorem max_update_metrics (a : Agent) (s : Bool) :
    (_update_agent_metrics a s).max_concurrent_tasks = a.max_concurrent_tasks := rfl

theorem detach_none (m : Manager) (task_id : String) (success : Bool) :
    detach_from_agent m task_id none success = (m, .ok ()) := rfl

theorem detach_missing_agent {m : Manager} {agent_id : String}
    (hget : dictGet Agent.id m.agents agent_id = none)
    (task_id : String) (success : Bool) :
    detach_from_agent m task_id (some agent_id) success = (m, .error "KeyError") := by
  simp only [detach_from_agent, hget]

theorem detach_held {m : Manager} {agent_id : String} {agent : Agent}
    (hget : dictGet Agent.id m.agents agent_id = some agent)
    {task_id : String} (hmem : task_id ∈ agent.current_tasks) (success : Bool) :
    detach_from_agent m task_id (some agent_id) success =
      ({ m with agents := (dictSet Agent.id m.agents
          (_update_agent_metrics ({ agent with
            current_tasks := agent.current_tasks.erase task_id }) success)) }, .ok ()) := by
  simp only [detach_from_agent, hget, if_pos hmem]

theorem detach_not_held {m : Manager} {agent_id : String} {agent : Agent}
    (hget : dictGet Agent.id m.agents agent_id = some agent)
    {task_id : String} (hmem : task_id ∉ agent.current_tasks) (success : Bool) :
    detach_from_agent m task_id (some agent_id) success = (m, .error "ValueError") := by
  simp only [detach_from_agent, hget, if_neg hmem]

theorem inv_detach {m : Manager} (h : Inv m) (task_id : String)
    (aa : Option String) (success : Bool) :
    Inv ((detach_from_agent m task_id aa success).1) := by
  cases aa with
  | none => exact h
  | some agent_id =>
    cases hget : dictGet Agent.id m.agents agent_id with
    | none => rw [detach_missing_agent hget]; exact h
    | some agent =>
      by_cases hmem : task_id ∈ agent.current_tasks
      · rw [detach_held hget hmem]
        obtain ⟨h1, h2, h3⟩ := h
        refine ⟨h1, ?_, h3⟩
        intro b hb
        rcases mem_dictSet hb with hb | rfl
        · exact h2 b hb
        · rw [current_tasks_update_metrics, max_update_metrics]
          calc (agent.current_tasks.erase task_id).length
              ≤ agent.current_tasks.length := (List.erase_sublist _ _).length_le
            _ ≤ agent.max_concurrent_tasks := h2 agent (dictGet_mem hget)
      · rw [detach_not_held hget hmem]
        exact h

theorem mem_dictGet_isSome {key : α → String} {l : List α} {x : α} (hx : x ∈ l) :
    (dictGet key l (key x)).isSome := by
  unfold dictGet
  exact List.find?_isSome.mpr ⟨x, hx, by simp⟩

theorem inv_process_dependent {m : Manager} (h : Inv m) (cid : String) :
    Inv (_process_dependent_tasks m cid) := by
  obtain ⟨h1, h2, h3⟩ := h
  refine ⟨h1, h2, ?_⟩
  unfold _process_dependent_tasks
  dsimp only
  have main : ∀ (ts : List Task) (q : List String),
      (∀ t ∈ ts, t ∈ m.tasks) →
      (∀ tid ∈ q, (dictGet Task.id m.tasks tid).isSome) →
      ∀ tid ∈ ts.foldl (fun q task =>
        if cid ∈ task.dependencies ∧ task.status = TaskStatus.pending ∧ task.id ∉ q then
          if task.dependencies.all (fun dep_id =>
              match dictGet Task.id m.tasks dep_id with
              | some dep => dep.status == TaskStatus.completed
              | none => true) then
            q ++ [task.id]
          else q
        else q) q, (dictGet Task.id m.tasks tid).isSome := by
    intro ts
    induction ts with
    | nil => intro q _ hq tid htid; exact hq tid htid
    | cons t ts ih =>
      intro q hts hq tid htid
      simp only [List.foldl_cons] at htid
      refine ih _ (fun u hu => hts u (List.mem_cons_of_mem _ hu)) ?_ tid htid
      intro u hu
      by_cases hc1 : cid ∈ t.dependencies ∧ t.status = TaskStatus.pending ∧ t.id ∉ q
      · rw [if_pos hc1] at hu
        by_cases hc2 : t.dependencies.all (fun dep_id =>
            match dictGet Task.id m.tasks dep_id with
            | some dep => dep.status == TaskStatus.completed
            | none => true) = true
        · rw [if_pos hc2] at hu
          rcases List.mem_append.mp hu with hu | hu
          · exact hq u hu
          · have : u = t.id := List.mem_singleton.mp hu
            subst this
            exact mem_dictGet_isSome (hts t (List.mem_cons_self _ _))
        · rw [if_neg hc2] at hu
          exact hq u hu
      · rw [if_neg hc1] at hu
        exact hq u hu
  exact main m.tasks m.task_queue (fun t ht => ht) h3

theorem reassign_missing_task {m : Manager} {task_id : String}
    (hget : dictGet Task.id m.tasks task_id = none) :
    _reassign_task m task_id = (m, .error "KeyError") := by
  simp only [_reassign_task, hget]

theorem reassign_unassigned {m : Manager} {task_id : String} {task : Task}
    (hget : dictGet Task.id m.tasks task_id = some task)
    (haa : task.assigned_agent = none) :
    _reassign_task m task_id =
      ({ m with
          tasks := (dictSet Task.id m.tasks
            ({ task with assigned_agent := none, status := TaskStatus.pending })),
          task_queue := m.task_queue ++ [task_id] }, .ok ()) := by
  simp only [_reassign_task, hget, haa]

theorem reassign_missing_agent {m : Manager} {task_id : String} {task : Task}
    {agent_id : String}
    (hget : dictGet Task.id m.tasks task_id = some task)
    (haa : task.assigned_agent = some agent_id)
    (hag : dictGet Agent.id m.agents agent_id = none) :
    _reassign_task m task_id = (m, .error "KeyError") := by
  simp only [_reassign_task, hget, haa, hag]

theorem reassign_not_held {m : Manager} {task_id : String} {task : Task}
    {agent_id : String} {agent : Agent}
    (hget : dictGet Task.id m.tasks task_id = some task)
    (haa : task.assigned_agent = some agent_id)
    (hag : dictGet Agent.id m.agents agent_id = some agent)
    (hmem : task_id ∉ agent.current_tasks) :
    _reassign_task m task_id = (m, .error "ValueError") := by
  simp only [_reassign_task, hget, haa, hag, if_neg hmem]

theorem reassign_held {m : Manager} {task_id : String} {task : Task}
    {agent_id : String} {agent : Agent}
    (hget : dictGet Task.id m.tasks task_id = some task)
    (haa : task.assigned_agent = some agent_id)
    (hag : dictGet Agent.id m.agents agent_id = some agent)
    (hmem : task_id ∈ agent.current_tasks) :
    _reassign_task m task_id =
      ({ m with
          agents := (dictSet Agent.id m.agents
            ({ agent with current_tasks := agent.current_tasks.erase task_id })),
          tasks := (dictSet Task.id m.tasks
            ({ task with assigned_agent := none, status := TaskStatus.pending })),
          task_queue := m.task_queue ++ [task_id] }, .ok ()) := by
  simp only [_reassign_task, hget, haa, hag, if_pos hmem]

theorem reassign_pending_entry {m : Manager} {task_id : String} {task : Task}
    (hget : dictGet Task.id m.tasks task_id = some task) :
    TaskOk ({ task with assigned_agent := none, status := TaskStatus.pending }) :=
  ⟨(fun hs => nomatch hs), (fun _ => rfl)⟩

theorem reassign_queue_entry_isSome {m : Manager} {task_id : String} {task : Task}
    (hget : dictGet Task.id m.tasks task_id = some task) {tid : String}
    (htid : tid ∈ m.task_queue ++ [task_id])
    (h3 : ∀ u ∈ m.task_queue, (dictGet Task.id m.tasks u).isSome) :
    (dictGet Task.id (dictSet Task.id m.tasks
      ({ task with assigned_agent := none, status := TaskStatus.pending })) tid).isSome := by
  rcases List.mem_append.mp htid with htid | htid
  · exact dictGet_isSome_dictSet _ _ _ _ (h3 tid htid)
  · have heq : tid = task_id := List.mem_singleton.mp htid
    subst heq
    have hkey : task.id = tid := dictGet_key hget
    subst hkey
    have h4 := dictGet_dictSet_self Task.id m.tasks
      ({ task with assigned_agent := none, status := TaskStatus.pending })
    have h5 : Task.id ({ task with assigned_agent := none, status := TaskStatus.pending }) = task.id := rfl
    rw [h5] at h4
    rw [h4]
    rfl

theorem inv_reassign {m : Manager} (h : Inv m) (task_id : String) :
    Inv ((_reassign_task m task_id).1) := by
  obtain ⟨h1, h2, h3⟩ := h
  cases hget : dictGet Task.id m.tasks task_id with
  | none => rw [reassign_missing_task hget]; exact ⟨h1, h2, h3⟩
  | some task =>
    cases haa : task.assigned_agent with
    | none =>
      rw [reassign_unassigned hget haa]
      refine ⟨?_, h2, ?_⟩
      · intro u hu
        rcases mem_dictSet hu with hu | rfl
        · exact h1 u hu
        · exact reassign_pending_entry hget
      · intro tid htid
        exact reassign_queue_entry_isSome hget htid h3
    | some agent_id =>
      cases hag : dictGet Agent.id m.agents agent_id with
      | none => rw [reassign_missing_agent hget haa hag]; exact ⟨h1, h2, h3⟩
      | some agent =>
        by_cases hmem : task_id ∈ agent.current_tasks
        · rw [reassign_held hget haa hag hmem]
          refine ⟨?_, ?_, ?_⟩
          · intro u hu
            rcases mem_dictSet hu with hu | rfl
            · exact h1 u hu
            · exact reassign_pending_entry hget
          · intro b hb
            rcases mem_dictSet hb with hb | rfl
            · exact h2 b hb
            · calc (agent.current_tasks.erase task_id).length
                  ≤ agent.current_tasks.length := (List.erase_sublist _ _).length_le
                _ ≤ agent.max_concurrent_tasks := h2 agent (dictGet_mem hag)
          · intro tid htid
            exact reassign_queue_entry_isSome hget htid h3
        · rw [reassign_not_held hget haa hag hmem]; exact ⟨h1, h2, h3⟩

theorem remove_agent_go_zero (agent_id : String) (i : Nat) (m : Manager) :
    remove_agent_go agent_id i 0 m = (m, .ok ()) := rfl

theorem remove_agent_go_missing {m : Manager} {agent_id : String}
    (hget : dictGet Agent.id m.agents agent_id = none) (i fuel : Nat) :
    remove_agent_go agent_id i (fuel + 1) m = (m, .error "KeyError") := by
  simp only [remove_agent_go, hget]

theorem remove_agent_go_stop {m : Manager} {agent_id : String} {agent : Agent}
    (hget : dictGet Agent.id m.agents agent_id = some agent) {i : Nat}
    (hi : ¬ i < agent.current_tasks.length) (fuel : Nat) :
    remove_agent_go agent_id i (fuel + 1) m = (m, .ok ()) := by
  simp only [remove_agent_go, hget]
  rw [dif_neg hi]

theorem remove_agent_go_step {m : Manager} {agent_id : String} {agent : Agent}
    (hget : dictGet Agent.id m.agents agent_id = some agent) {i : Nat}
    (hi : i < agent.current_tasks.length) (fuel : Nat) :
    remove_agent_go agent_id i (fuel + 1) m =
      (match _reassign_task m (agent.current_tasks.get ⟨i, hi⟩) with
       | (m, .error e) => (m, .error e)
       | (m, .ok _) => remove_agent_go agent_id (i + 1) fuel m) := by
  simp only [remove_agent_go, hget]
  rw [dif_pos hi]

theorem inv_remove_go (agent_id : String) :
    ∀ (fuel i : Nat) {m : Manager}, Inv m →
      Inv ((remove_agent_go agent_id i fuel m).1) := by
  intro fuel
  induction fuel with
  | zero => intro i m h; exact h
  | succ fuel ih =>
    intro i m h
    cases hget : dictGet Agent.id m.agents agent_id with
    | none => rw [remove_agent_go_missing hget]; exact h
    | some agent =>
      by_cases hi : i < agent.current_tasks.length
      · rw [remove_agent_go_step hget hi]
        rcases hre : _reassign_task m (agent.current_tasks.get ⟨i, hi⟩) with ⟨m2, res⟩
        have hm2 : Inv m2 := by
          have := inv_reassign h (agent.current_tasks.get ⟨i, hi⟩)
          rwa [hre] at this
        cases res with
        | error e => exact hm2
        | ok u => exact ih _ hm2
      · rw [remove_agent_go_stop hget hi]
        exact h

theorem remove_agent_absent {m : Manager} {agent_id : String}
    (hget : dictGet Agent.id m.agents agent_id = none) :
    remove_agent m agent_id = (m, .ok false) := by
  simp only [remove_agent, hget]

theorem remove_agent_present {m : Manager} {agent_id : String} {agent : Agent}
    (hget : dictGet Agent.id m.agents agent_id = some agent) :
    remove_agent m agent_id =
      (match remove_agent_go agent_id 0 agent.current_tasks.length m with
       | (m, .error e) => (m, .error e)
       | (m, .ok _) =>
         (_emit_event ({ m with agents := dictDel Agent.id m.agents agent_id })
           "agent_removed" [("agent_id", some agent_id)], .ok true)) := by
  simp only [remove_agent, hget]

theorem inv_remove {m : Manager} (h : Inv m) (agent_id : String) :
    Inv ((remove_agent m agent_id).1) := by
  cases hget : dictGet Agent.id m.agents agent_id with
  | none => rw [remove_agent_absent hget]; exact h
  | some agent =>
    rw [remove_agent_present hget]
    rcases hgo : remove_agent_go agent_id 0 agent.current_tasks.length m with ⟨m2, res⟩
    have hm2 : Inv m2 := by
      have := inv_remove_go agent_id agent.current_tasks.length 0 h
      rwa [hgo] at this
    cases res with
    | error e => exact hm2
    | ok u =>
      obtain ⟨h1, h2, h3⟩ := hm2
      exact ⟨h1, fun a ha => h2 a (mem_dictDel ha), h3⟩

theorem complete_task_absent {m : Manager} {task_id : String}
    (hget : dictGet Task.id m.tasks task_id = none) (result : Option String) :
    complete_task m task_id result = (m, .ok false) := by
  simp only [complete_task, hget]

theorem complete_task_not_in_progress {m : Manager} {task_id : String} {task : Task}
    (hget : dictGet Task.id m.tasks task_id = some task)
    (hst : task.status ≠ TaskStatus.in_progress) (result : Option String) :
    complete_task m task_id result = (m, .ok false) := by
  simp only [complete_task, hget, if_pos hst]

theorem complete_task_in_progress {m : Manager} {task_id : String} {task : Task}
    (hget : dictGet Task.id m.tasks task_id = some task)
    (hst : task.status = TaskStatus.in_progress) (result : Option String) :
    complete_task m task_id result =
      (match detach_from_agent ({ m with tasks := (dictSet Task.id m.tasks
          ({ task with status := TaskStatus.completed, result := result })) })
          task_id task.assigned_agent true with
       | (m2, .error e) => (m2, .error e)
       | (m2, .ok _) =>
         match _process_task_queue (_process_dependent_tasks
             (_emit_event m2 "task_completed" [("task_id", some task_id)]) task_id) with
         | (m3, .error e) => (m3, .error e)
         | (m3, .ok _) => (m3, .ok true)) := by
  have hst' : ¬ task.status ≠ TaskStatus.in_progress := fun hh => hh hst
  simp only [complete_task, hget, if_neg hst']

theorem inv_complete {m : Manager} (h : Inv m) (task_id : String)
    (result : Option String) : Inv ((complete_task m task_id result).1) := by
  cases hget : dictGet Task.id m.tasks task_id with
  | none => rw [complete_task_absent hget]; exact h
  | some task =>
    by_cases hst : task.status = TaskStatus.in_progress
    · rw [complete_task_in_progress hget hst]
      have hm1 : Inv ({ m with tasks := (dictSet Task.id m.tasks
          ({ task with status := TaskStatus.completed, result := result })) }) := by
        obtain ⟨h1, h2, h3⟩ := h
        refine ⟨?_, h2, ?_⟩
        · intro u hu
          rcases mem_dictSet hu with hu | rfl
          · exact h1 u hu
          · exact ⟨(fun hs => nomatch hs), (fun hs => nomatch hs)⟩
        · intro tid htid
          exact dictGet_isSome_dictSet _ _ _ _ (h3 tid htid)
      rcases hdet : detach_from_agent ({ m with tasks := (dictSet Task.id m.tasks
          ({ task with status := TaskStatus.completed, result := result })) })
          task_id task.assigned_agent true with ⟨m2, res⟩
      have hm2 : Inv m2 := by
        have := inv_detach hm1 task_id task.assigned_agent true
        rwa [hdet] at this
      cases res with
      | error e => exact hm2
      | ok u =>
        dsimp only
        have hm3 := inv_process_dependent
          (inv_emit hm2 "task_completed" [("task_id", some task_id)]) task_id
        rcases hq : _process_task_queue (_process_dependent_tasks
            (_emit_event m2 "task_completed" [("task_id", some task_id)]) task_id)
          with ⟨m4, res4⟩
        have hm4 : Inv m4 := by
          have := inv_process_task_queue hm3
          rwa [hq] at this
        cases res4 with
        | error e => exact hm4
        | ok u2 => exact hm4
    · rw [complete_task_not_in_progress hget hst result]
      exact h

theorem fail_task_absent {m : Manager} {task_id : String}
    (hget : dictGet Task.id m.tasks task_id = none) (reason : Option String) :
    fail_task m task_id reason = (m, .ok false) := by
  simp only [fail_task, hget]

theorem fail_task_not_in_progress {m : Manager} {task_id : String} {task : Task}
    (hget : dictGet Task.id m.tasks task_id = some task)
    (hst : task.status ≠ TaskStatus.in_progress) (reason : Option String) :
    fail_task m task_id reason = (m, .ok false) := by
  simp only [fail_task, hget, if_pos hst]

theorem fail_task_in_progress {m : Manager} {task_id : String} {task : Task}
    (hget : dictGet Task.id m.tasks task_id = some task)
    (hst : task.status = TaskStatus.in_progress) (reason : Option String) :
    fail_task m task_id reason =
      (match detach_from_agent ({ m with tasks := (dictSet Task.id m.tasks
          ({ task with status := TaskStatus.failed, failure_reason := some reason })) })
          task_id task.assigned_agent false with
       | (m2, .error e) => (m2, .error e)
       | (m2, .ok _) =>
         (_emit_event m2 "task_failed" [("task_id", some task_id), ("reason", reason)],
           .ok true)) := by
  have hst' : ¬ task.status ≠ TaskStatus.in_progress := fun hh => hh hst
  simp only [fail_task, hget, if_neg hst']

theorem inv_fail {m : Manager} (h : Inv m) (task_id : String)
    (reason : Option String) : Inv ((fail_task m task_id reason).1) := by
  cases hget : dictGet Task.id m.tasks task_id with
  | none => rw [fail_task_absent hget]; exact h
  | some task =>
    by_cases hst : task.status = TaskStatus.in_progress
    · rw [fail_task_in_progress hget hst]
      have hm1 : Inv ({ m with tasks := (dictSet Task.id m.tasks
          ({ task with status := TaskStatus.failed, failure_reason := some reason })) }) := by
        obtain ⟨h1, h2, h3⟩ := h
        refine ⟨?_, h2, ?_⟩
        · intro u hu
          rcases mem_dictSet hu with hu | rfl
          · exact h1 u hu
          · exact ⟨(fun hs => nomatch hs), (fun hs => nomatch hs)⟩
        · intro tid htid
          exact dictGet_isSome_dictSet _ _ _ _ (h3 tid htid)
      rcases hdet : detach_from_agent ({ m with tasks := (dictSet Task.id m.tasks
          ({ task with status := TaskStatus.failed, failure_reason := some reason })) })
          task_id task.assigned_agent false with ⟨m2, res⟩
      have hm2 : Inv m2 := by
        have := inv_detach hm1 task_id task.assigned_agent false
        rwa [hdet] at this
      cases res with
      | error e => exact hm2
      | ok u => exact hm2
    · rw [fail_task_not_in_progress hget hst reason]
      exact h


theorem inv_submit_store {m : Manager} (h : Inv m) {t : Task} {m1 : Manager}
    (ht : TaskOk t) (hs : submit_task_store m t = some m1) : Inv m1 := by
  unfold submit_task_store at hs
  by_cases hdep : t.dependencies.all (fun dep_id =>
      match dictGet Task.id m.tasks dep_id with
      | some dep => dep.status == TaskStatus.completed
      | none => false) = true
  · rw [if_pos hdep] at hs
    cases hs
    apply inv_emit
    obtain ⟨h1, h2, h3⟩ := h
    refine ⟨?_, h2, ?_⟩
    · intro u hu
      rcases mem_dictSet hu with hu | rfl
      · exact h1 u hu
      · exact ht
    · intro tid htid
      rcases List.mem_append.mp htid with htid | htid
      · exact dictGet_isSome_dictSet _ _ _ _ (h3 tid htid)
      · have : tid = t.id := List.mem_singleton.mp htid
        subst this
        rw [dictGet_dictSet_self]
        rfl
  · rw [if_neg hdep] at hs
    cases hs

theorem inv_submit {m : Manager} (h : Inv m) {t : Task} (ht : TaskOk t) :
    Inv ((submit_task m t).1) := by
  unfold submit_task
  cases hs : submit_task_store m t with
  | none => exact h
  | some m1 =>
    dsimp only
    have hm1 := inv_submit_store h ht hs
    rcases hq : _process_task_queue m1 with ⟨m2, res⟩
    have hm2 : Inv m2 := by
      have := inv_process_task_queue hm1
      rwa [hq] at this
    cases res with
    | error e => exact hm2
    | ok u => exact hm2

theorem inv_mkManager (s : StrategyKind) : Inv (mkManager s) :=
  ⟨(fun _ ht => nomatch ht), (fun _ ha => nomatch ha), (fun _ ht => nomatch ht)⟩

theorem inv_reachable {m : Manager} (h : Reachable m) : Inv m := by
  induction h with
  | init s => exact inv_mkManager s
  | register h id name role caps mx act ih => exact inv_register ih id name role caps mx act
  | remove h agent_id ih => exact inv_remove ih agent_id
  | submit h id de reqs prio deps ih =>
    exact inv_submit ih ⟨(fun hs => nomatch hs), (fun _ => rfl)⟩
  | complete h task_id result ih => exact inv_complete ih task_id result
  | fail h task_id reason ih => exact inv_fail ih task_id reason

/-! ## Preservation of individual registry entries -/

theorem tasks_emit (m : Manager) (e : String) (d : List (String × Option String)) :
    (_emit_event m e d).tasks = m.tasks := rfl

theorem queue_emit (m : Manager) (e : String) (d : List (String × Option String)) :
    (_emit_event m e d).task_queue = m.task_queue := rfl

theorem tasks_dep (m : Manager) (cid : String) :
    (_process_dependent_tasks m cid).tasks = m.tasks := rfl

theorem agents_dep (m : Manager) (cid : String) :
    (_process_dependent_tasks m cid).agents = m.agents := rfl

theorem tasks_detach (m : Manager) (task_id : String) (aa : Option String)
    (success : Bool) : ((detach_from_agent m task_id aa success).1).tasks = m.tasks := by
  cases aa with
  | none => rfl
  | some agent_id =>
    cases hget : dictGet Agent.id m.agents agent_id with
    | none => rw [detach_missing_agent hget]
    | some agent =>
      by_cases hmem : task_id ∈ agent.current_tasks
      · rw [detach_held hget hmem]
      · rw [detach_not_held hget hmem]

theorem queue_detach (m : Manager) (task_id : String) (aa : Option String)
    (success : Bool) :
    ((detach_from_agent m task_id aa success).1).task_queue = m.task_queue := by
  cases aa with
  | none => rfl
  | some agent_id =>
    cases hget : dictGet Agent.id m.agents agent_id with
    | none => rw [detach_missing_agent hget]
    | some agent =>
      by_cases hmem : task_id ∈ agent.current_tasks
      · rw [detach_held hget hmem]
      · rw [detach_not_held hget hmem]

/-- A registry entry whose status is not pending is never touched by the
queue-drain walk: assignments only rewrite the entry of a task the walk
found pending. -/
theorem go_preserves_nonpending {k : String} {t : Task}
    (ht : t.status ≠ TaskStatus.pending) :
    ∀ (q acc : List String) {m : Manager}, dictGet Task.id m.tasks k = some t →
      dictGet Task.id ((process_queue_go m q acc).1.1).tasks k = some t := by
  intro q
  induction q with
  | nil => intro acc m hm; exact hm
  | cons tid rest ih =>
    intro acc m hm
    cases hget : dictGet Task.id m.tasks tid with
    | none => simp only [process_queue_go, hget]; exact hm
    | some task =>
      by_cases hst : task.status ≠ TaskStatus.pending
      · simp only [process_queue_go, hget, if_pos hst]
        exact ih _ hm
      · simp only [process_queue_go, hget, if_neg hst]
        have hpend : task.status = TaskStatus.pending := not_not.mp hst
        have hne : tid ≠ k := by
          intro heq
          subst heq
          rw [hm] at hget
          cases hget
          exact ht hpend
        cases hpick : (assign_strategy m task (_get_available_agents m)).1 with
        | some ag =>
          simp only [hpick]
          apply ih
          unfold _assign_task_to_agent
          rw [tasks_emit]
          show dictGet Task.id (dictSet Task.id m.tasks _) k = some t
          rw [dictGet_dictSet_ne]
          · exact hm
          · have h5 : Task.id ({ task with assigned_agent := some ag.id, status := TaskStatus.in_progress }) = task.id := rfl
            rw [h5, dictGet_key hget]
            exact fun hh => hne hh.symm
        | none =>
          simp only [hpick]
          exact ih _ hm

theorem drain_preserves_nonpending {k : String} {t : Task}
    (ht : t.status ≠ TaskStatus.pending) {m : Manager}
    (hm : dictGet Task.id m.tasks k = some t) :
    dictGet Task.id ((_process_task_queue m).1).tasks k = some t := by
  rw [tasks_process_task_queue]
  exact go_preserves_nonpending ht m.task_queue [] hm

/-- `_reassign_task` with a task id other than `k` leaves the first
registry entry at key `k` unchanged. -/
theorem reassign_preserves_entry {m : Manager} {task_id k : String} {t : Task}
    (hne : task_id ≠ k) (hm : dictGet Task.id m.tasks k = some t) :
    dictGet Task.id ((_reassign_task m task_id).1).tasks k = some t := by
  cases hget : dictGet Task.id m.tasks task_id with
  | none => rw [reassign_missing_task hget]; exact hm
  | some task =>
    have hkey : task.id = task_id := dictGet_key hget
    have hkne : k ≠ Task.id ({ task with assigned_agent := none, status := TaskStatus.pending }) := by
      have h5 : Task.id ({ task with assigned_agent := none, status := TaskStatus.pending }) = task.id := rfl
      rw [h5, hkey]
      exact fun hh => hne hh.symm
    cases haa : task.assigned_agent with
    | none =>
      rw [reassign_unassigned hget haa]
      show dictGet Task.id (dictSet Task.id m.tasks _) k = some t
      rw [dictGet_dictSet_ne _ _ _ hkne]
      exact hm
    | some agent_id =>
      cases hag : dictGet Agent.id m.agents agent_id with
      | none => rw [reassign_missing_agent hget haa hag]; exact hm
      | some agent =>
        by_cases hmem : task_id ∈ agent.current_tasks
        · rw [reassign_held hget haa hag hmem]
          show dictGet Task.id (dictSet Task.id m.tasks _) k = some t
          rw [dictGet_dictSet_ne _ _ _ hkne]
          exact hm
        · rw [reassign_not_held hget haa hag hmem]; exact hm

/-- After `_reassign_task`, any agent entry holds a sub-collection of the
task ids it held before (the step only ever erases from a list). -/
theorem reassign_agents_entry {m : Manager} (task_id : String) (aid : String)
    {agent' : Agent}
    (h : dictGet Agent.id ((_reassign_task m task_id).1).agents aid = some agent') :
    ∃ agent, dictGet Agent.id m.agents aid = some agent ∧
      ∀ x ∈ agent'.current_tasks, x ∈ agent.current_tasks := by
  cases hget : dictGet Task.id m.tasks task_id with
  | none =>
    rw [reassign_missing_task hget] at h
    exact ⟨agent', h, fun x hx => hx⟩
  | some task =>
    cases haa : task.assigned_agent with
    | none =>
      rw [reassign_unassigned hget haa] at h
      exact ⟨agent', h, fun x hx => hx⟩
    | some agent_id =>
      cases hag : dictGet Agent.id m.agents agent_id with
      | none =>
        rw [reassign_missing_agent hget haa hag] at h
        exact ⟨agent', h, fun x hx => hx⟩
      | some agent =>
        by_cases hmem : task_id ∈ agent.current_tasks
        · rw [reassign_held hget haa hag hmem] at h
          have hakey : agent.id = agent_id := dictGet_key hag
          by_cases haid : aid = agent_id
          · have h6 : aid = Agent.id ({ agent with current_tasks := agent.current_tasks.erase task_id }) := by
              have h5 : Agent.id ({ agent with current_tasks := agent.current_tasks.erase task_id }) = agent.id := rfl
              rw [h5, hakey]
              exact haid
            rw [h6] at h
            rw [dictGet_dictSet_self] at h
            injection h with h7
            subst h7
            refine ⟨agent, ?_, fun x hx => (List.erase_sublist _ _).subset hx⟩
            rw [haid]
            exact hag
          · have hne : aid ≠ Agent.id ({ agent with current_tasks := agent.current_tasks.erase task_id }) := by
              have h5 : Agent.id ({ agent with current_tasks := agent.current_tasks.erase task_id }) = agent.id := rfl
              rw [h5, hakey]
              exact haid
            rw [dictGet_dictSet_ne _ _ _ hne] at h
            exact ⟨agent', h, fun x hx => hx⟩
        · rw [reassign_not_held hget haa hag hmem] at h
          exact ⟨agent', h, fun x hx => hx⟩

/-- The removal loop leaves a registry entry untouched as long as the
removed agent never held that id. -/
theorem remove_go_preserves_entry (agent_id : String) {k : String} {t : Task} :
    ∀ (fuel i : Nat) {m : Manager}, dictGet Task.id m.tasks k = some t →
      (∀ agent, dictGet Agent.id m.agents agent_id = some agent →
        k ∉ agent.current_tasks) →
      dictGet Task.id ((remove_agent_go agent_id i fuel m).1).tasks k = some t := by
  intro fuel
  induction fuel with
  | zero => intro i m hm _; exact hm
  | succ fuel ih =>
    intro i m hm hag
    cases hget : dictGet Agent.id m.agents agent_id with
    | none => rw [remove_agent_go_missing hget]; exact hm
    | some agent =>
      by_cases hi : i < agent.current_tasks.length
      · rw [remove_agent_go_step hget hi]
        have hmemi : agent.current_tasks.get ⟨i, hi⟩ ∈ agent.current_tasks :=
          List.get_mem _ _ _
        have hne : agent.current_tasks.get ⟨i, hi⟩ ≠ k :=
          fun hh => hag agent hget (hh ▸ hmemi)
        rcases hre : _reassign_task m (agent.current_tasks.get ⟨i, hi⟩) with ⟨m2, res⟩
        have hm2 : dictGet Task.id m2.tasks k = some t := by
          have := reassign_preserves_entry hne hm
          rwa [hre] at this
        have hag2 : ∀ agent2, dictGet Agent.id m2.agents agent_id = some agent2 →
            k ∉ agent2.current_tasks := by
          intro agent2 h2 hk
          have h2' : dictGet Agent.id ((_reassign_task m
              (agent.current_tasks.get ⟨i, hi⟩)).1).agents agent_id = some agent2 := by
            rw [hre]; exact h2
          rcases reassign_agents_entry _ _ h2' with ⟨agent0, hag0, hsub⟩
          rw [hget] at hag0
          cases hag0
          exact hag agent hget (hsub k hk)
        cases res with
        | error e => exact hm2
        | ok u => exact ih _ hm2 hag2
      · rw [remove_agent_go_stop hget hi]
        exact hm

/-! ## Reachability of the concrete scenario states -/

theorem reachable_mT2 : Reachable mT2 :=
  Reachable.submit (Reachable.submit (Reachable.register
    (Reachable.init .capabilityBased) "a1" "Alice" .worker ["x"] 2 true)
    "t1" "first" ["x"] 1 []) "t2" "second" ["x"] 1 []

theorem reachable_mRemoved : Reachable mRemoved :=
  Reachable.remove reachable_mT2 "a1"

theorem reachable_nB : Reachable nB :=
  Reachable.register (Reachable.init .capabilityBased) "b1" "Bob" .worker ["x"] 1 true

theorem reachable_nU1 : Reachable nU1 :=
  Reachable.submit reachable_nB "u1" "only" ["x"] 1 []

theorem reachable_nDone : Reachable nDone :=
  Reachable.complete reachable_nU1 "u1" none

theorem reachable_nQueued : Reachable nQueued :=
  Reachable.submit reachable_nU1 "u2" "queued" ["x"] 1 []

/-! ## Claim C1 -/

/-- C1 (code bug): per the specification, `remove_agent("a1")` on a
registered agent must detach every task the agent holds.  On the
reachable state `mT2` — agent `a1` (capacity 2) holding
`["t1", "t2"]` — the call returns true, deletes `a1`, emits
`agent_removed` and requeues `t1` as pending, but leaves `t2`
in progress with `assigned_agent` still `"a1"`: the loop iterates
`agent.current_tasks` while `_reassign_task` removes from that same
list, so every other held task is skipped. -/
theorem C1_remove_agent_skips_second_task :
    Reachable mT2 ∧
    (dictGet Agent.id mT2.agents "a1").map Agent.current_tasks = some ["t1", "t2"] ∧
    (remove_agent mT2 "a1").2 = .ok true ∧
    dictGet Agent.id mRemoved.agents "a1" = none ∧
    ("agent_removed", [("agent_id", some "a1")]) ∈ mRemoved.events ∧
    (dictGet Task.id mRemoved.tasks "t1").map
      (fun t => (t.status, t.assigned_agent)) = some (TaskStatus.pending, none) ∧
    mRemoved.task_queue = ["t1"] ∧
    dictGet Task.id mRemoved.tasks "t2" = some t2Orphan :=
  ⟨reachable_mT2, by decide, rfl, by decide, by decide, by decide, by decide, by decide⟩

/-! ## Claim C2 -/

/-- C2 (counterexample): the claimed invariant — `assigned_agent` is
non-empty iff the status is `in_progress`, in every reachable state —
fails on the reachable state `nDone`: completing `u1` sets its status to
`completed` but never clears `assigned_agent`, which still reads
`some "b1"`. -/
theorem C2_assigned_iff_in_progress_cex :
    Reachable nDone ∧
    dictGet Task.id nDone.tasks "u1" = some u1Completed ∧
    ¬ (∀ m : Manager, Reachable m → ∀ t ∈ m.tasks,
        (t.assigned_agent ≠ none ↔ t.status = TaskStatus.in_progress)) := by
  refine ⟨reachable_nDone, by decide, ?_⟩
  intro hall
  have hx : dictGet Task.id nDone.tasks "u1" = some u1Completed := by decide
  have hmem : u1Completed ∈ nDone.tasks := dictGet_mem hx
  have hiff := hall nDone reachable_nDone u1Completed hmem
  have : u1Completed.status = TaskStatus.in_progress :=
    hiff.mp (by decide)
  exact absurd this (by decide)

/-- C2 (amended): in every reachable state, the direction of the
invariant the code maintains is: an `in_progress` task always records an
agent, and a `pending` task never does; `completed`/`failed` entries
retain the last `assigned_agent` instead of clearing it. -/
theorem C2_assigned_agent_invariant_amended (m : Manager) (h : Reachable m) :
    ∀ t ∈ m.tasks,
      (t.status = TaskStatus.in_progress → t.assigned_agent ≠ none) ∧
      (t.status = TaskStatus.pending → t.assigned_agent = none) :=
  (inv_reachable h).1

/-- Witness for the amended C2 invariant at the reachable state `nU1`. -/
theorem C2_assigned_agent_invariant_witness :
    u1Assigned ∈ nU1.tasks ∧ u1Assigned.status = TaskStatus.in_progress ∧
      u1Assigned.assigned_agent ≠ none := by
  have hx : dictGet Task.id nU1.tasks "u1" = some u1Assigned := by decide
  have hmem : u1Assigned ∈ nU1.tasks := dictGet_mem hx
  have h := C2_assigned_agent_invariant_amended nU1 reachable_nU1 u1Assigned hmem
  exact ⟨hmem, rfl, h.1 rfl⟩

/-! ## Claim C3 -/

/-- C3 (code bug): the specification promises that `complete_task` and
`fail_task` never raise — in particular not when the recorded
`assigned_agent` is gone from the registry.  On the reachable state
`mRemoved` (produced by `remove_agent("a1")`, which orphans `t2`), both
calls on `t2` reach `self.agents[task.assigned_agent]` and raise
`KeyError`; the completion path has already flipped the status to
`completed` when it raises. -/
theorem C3_complete_task_raises_keyerror :
    Reachable mRemoved ∧
    dictGet Task.id mRemoved.tasks "t2" = some t2Orphan ∧
    dictGet Agent.id mRemoved.agents "a1" = none ∧
    (complete_task mRemoved "t2" none).2 = .error "KeyError" ∧
    (fail_task mRemoved "t2" none).2 = .error "KeyError" ∧
    (dictGet Task.id (complete_task mRemoved "t2" none).1.tasks "t2").map Task.status
      = some TaskStatus.completed :=
  ⟨reachable_mRemoved, by decide, by decide, rfl, rfl, by decide⟩

/-! ## Claim C4 -/

/-- C4 (counterexample): the claim says every successful `fail_task`
call runs the queue drain, so a queued pending task with an eligible
agent is assigned within that call.  On the reachable state `nQueued`
(`u1` in progress on the capacity-1 agent `b1`, `u2` pending in the
queue), `fail_task("u1")` succeeds and frees `b1` — the
capability-based strategy would pick `b1` for `u2` — yet `u2` is still
pending and still queued when the call returns: `fail_task` never calls
`_process_task_queue`. -/
theorem C4_fail_task_no_drain_cex :
    Reachable nQueued ∧
    (fail_task nQueued "u1" (some "boom")).2 = .ok true ∧
    dictGet Task.id (fail_task nQueued "u1" (some "boom")).1.tasks "u2"
      = some u2Stored ∧
    (fail_task nQueued "u1" (some "boom")).1.task_queue = ["u2"] ∧
    ((_get_available_agents (fail_task nQueued "u1" (some "boom")).1).map Agent.id)
      = ["b1"] ∧
    (capabilityAssign u2Stored
      (_get_available_agents (fail_task nQueued "u1" (some "boom")).1)).isSome
      = true ∧
    (fail_task nQueued "u1" (some "boom")).1.strategy = StrategyKind.capabilityBased :=
  ⟨reachable_nQueued, rfl, by decide, by decide, by decide, by decide, by decide⟩

/-- C4 (amended): `fail_task` performs no queue drain at all: it leaves
the pending queue exactly as it was, and every pending registry entry is
still the same pending entry afterwards — capacity freed by a failure is
used only by the drain of a later `submit_task` or `complete_task`
call. -/
theorem C4_fail_task_runs_no_drain (m : Manager) (task_id : String)
    (reason : Option String) :
    ((fail_task m task_id reason).1).task_queue = m.task_queue ∧
    (∀ k u, dictGet Task.id m.tasks k = some u → u.status = TaskStatus.pending →
      dictGet Task.id ((fail_task m task_id reason).1).tasks k = some u) := by
  cases hget : dictGet Task.id m.tasks task_id with
  | none => rw [fail_task_absent hget]; exact ⟨rfl, fun k u hk _ => hk⟩
  | some task =>
    by_cases hst : task.status = TaskStatus.in_progress
    · rw [fail_task_in_progress hget hst reason]
      rcases hdet : detach_from_agent ({ m with tasks := (dictSet Task.id m.tasks
          ({ task with status := TaskStatus.failed, failure_reason := some reason })) })
          task_id task.assigned_agent false with ⟨m2, res⟩
      have hqd : m2.task_queue = m.task_queue := by
        have := queue_detach ({ m with tasks := (dictSet Task.id m.tasks
          ({ task with status := TaskStatus.failed, failure_reason := some reason })) })
          task_id task.assigned_agent false
        rw [hdet] at this
        exact this
      have htd : m2.tasks = dictSet Task.id m.tasks
          ({ task with status := TaskStatus.failed, failure_reason := some reason }) := by
        have := tasks_detach ({ m with tasks := (dictSet Task.id m.tasks
          ({ task with status := TaskStatus.failed, failure_reason := some reason })) })
          task_id task.assigned_agent false
        rw [hdet] at this
        exact this
      have hent : ∀ k u, dictGet Task.id m.tasks k = some u →
          u.status = TaskStatus.pending →
          dictGet Task.id m2.tasks k = some u := by
        intro k u hk hu
        rw [htd]
        have hkne : k ≠ Task.id ({ task with status := TaskStatus.failed, failure_reason := some reason }) := by
          have h5 : Task.id ({ task with status := TaskStatus.failed, failure_reason := some reason }) = task.id := rfl
          rw [h5, dictGet_key hget]
          intro heq
          subst heq
          rw [hk] at hget
          injection hget with h7
          subst h7
          rw [hu] at hst
          cases hst
        rw [dictGet_dictSet_ne _ _ _ hkne]
        exact hk
      cases res with
      | error e => exact ⟨hqd, hent⟩
      | ok u => exact ⟨hqd, hent⟩
    · rw [fail_task_not_in_progress hget hst reason]
      exact ⟨rfl, fun k u hk _ => hk⟩

/-- Witness for the amended C4 statement at the reachable state
`nQueued`: the failure leaves the queue `["u2"]` untouched and the
pending entry `u2` unchanged. -/
theorem C4_fail_task_runs_no_drain_witness :
    ((fail_task nQueued "u1" (some "x")).1).task_queue = nQueued.task_queue ∧
    dictGet Task.id ((fail_task nQueued "u1" (some "x")).1).tasks "u2"
      = some u2Stored :=
  ⟨(C4_fail_task_runs_no_drain nQueued "u1" (some "x")).1,
    (C4_fail_task_runs_no_drain nQueued "u1" (some "x")).2 "u2" u2Stored
      (by decide) (by decide)⟩

/-! ## Claim C5 -/

theorem submit_store_some {m : Manager} {u : Task} {m1 : Manager}
    (hs : submit_task_store m u = some m1) :
    m1.tasks = dictSet Task.id m.tasks u ∧ m1.task_queue = m.task_queue ++ [u.id] := by
  unfold submit_task_store at hs
  split at hs
  · cases hs; exact ⟨rfl, rfl⟩
  · cases hs

theorem submit_store_none {m : Manager} {u : Task}
    (hs : submit_task_store m u = none) : submit_task m u = (m, .ok false) := by
  simp only [submit_task, hs]

/-- C5 (counterexample): the claim says a `completed`/`failed` registry
entry is never returned to `pending`/`in_progress` by any later call,
re-submission of the same id included.  On the reachable state `nDone`
the entry `u1` is terminal (`completed`), yet `submit_task` with a fresh
task bearing the same id returns true, overwrites the entry with a
pending task, and the immediate drain even re-assigns it — the entry
reads `in_progress` again. -/
theorem C5_resubmission_resurrects_cex :
    Reachable nDone ∧
    dictGet Task.id nDone.tasks "u1" = some u1Completed ∧
    (submit_task nDone (mkTask "u1" "again" ["x"] 1 [])).2 = .ok true ∧
    (dictGet Task.id nResub.tasks "u1").map Task.status
      = some TaskStatus.in_progress :=
  ⟨reachable_nDone, by decide, rfl, by decide⟩

/-- C5 (amended): a terminal (`completed`/`failed`) registry entry is
never modified by `complete_task` or `fail_task` with any id, nor by
`submit_task` of a task with a different id, nor by `remove_agent` of an
agent whose `current_tasks` does not contain the entry's id; only
`submit_task` bearing the same id (which overwrites the entry with the
newly submitted pending task, as the counterexample shows) or removal of
an agent still listing the id can change it. -/
theorem C5_terminal_never_left_amended (m : Manager) (t : Task)
    (hget : dictGet Task.id m.tasks t.id = some t)
    (hterm : t.status = TaskStatus.completed ∨ t.status = TaskStatus.failed) :
    (∀ id res, dictGet Task.id ((complete_task m id res).1).tasks t.id = some t) ∧
    (∀ id reason, dictGet Task.id ((fail_task m id reason).1).tasks t.id = some t) ∧
    (∀ u : Task, u.id ≠ t.id →
      dictGet Task.id ((submit_task m u).1).tasks t.id = some t) ∧
    (∀ agent_id agent, dictGet Agent.id m.agents agent_id = some agent →
      t.id ∉ agent.current_tasks →
      dictGet Task.id ((remove_agent m agent_id).1).tasks t.id = some t) := by
  have htns : t.status ≠ TaskStatus.pending := by
    rcases hterm with h | h <;> rw [h] <;> intro hh <;> cases hh
  have htni : t.status ≠ TaskStatus.in_progress := by
    rcases hterm with h | h <;> rw [h] <;> intro hh <;> cases hh
  refine ⟨?_, ?_, ?_, ?_⟩
  · -- complete_task with any id
    intro id res
    cases hg2 : dictGet Task.id m.tasks id with
    | none => rw [complete_task_absent hg2]; exact hget
    | some task =>
      by_cases hs2 : task.status = TaskStatus.in_progress
      · rw [complete_task_in_progress hg2 hs2 res]
        have hne : t.id ≠ Task.id ({ task with status := TaskStatus.completed, result := res }) := by
          have h5 : Task.id ({ task with status := TaskStatus.completed, result := res }) = task.id := rfl
          rw [h5, dictGet_key hg2]
          intro heq
          rw [← heq, hget] at hg2
          injection hg2 with h7
          rw [← h7] at hs2
          exact htni hs2
        rcases hdet : detach_from_agent ({ m with tasks := (dictSet Task.id m.tasks
            ({ task with status := TaskStatus.completed, result := res })) })
            id task.assigned_agent true with ⟨m2, res2⟩
        have hm2 : dictGet Task.id m2.tasks t.id = some t := by
          have htd := tasks_detach ({ m with tasks := (dictSet Task.id m.tasks
            ({ task with status := TaskStatus.completed, result := res })) })
            id task.assigned_agent true
          rw [hdet] at htd
          rw [htd]
          show dictGet Task.id (dictSet Task.id m.tasks _) t.id = some t
          rw [dictGet_dictSet_ne _ _ _ hne]
          exact hget
        cases res2 with
        | error e => exact hm2
        | ok u2 =>
          dsimp only
          rcases hq : _process_task_queue (_process_dependent_tasks
              (_emit_event m2 "task_completed" [("task_id", some id)]) id)
            with ⟨m4, res4⟩
          have hm4 : dictGet Task.id m4.tasks t.id = some t := by
            have hpre : dictGet Task.id (_process_dependent_tasks
                (_emit_event m2 "task_completed" [("task_id", some id)]) id).tasks
                t.id = some t := hm2
            have := drain_preserves_nonpending htns hpre
            rwa [hq] at this
          cases res4 with
          | error e => exact hm4
          | ok u4 => exact hm4
      · rw [complete_task_not_in_progress hg2 hs2 res]
        exact hget
  · -- fail_task with any id
    intro id reason
    cases hg2 : dictGet Task.id m.tasks id with
    | none => rw [fail_task_absent hg2]; exact hget
    | some task =>
      by_cases hs2 : task.status = TaskStatus.in_progress
      · rw [fail_task_in_progress hg2 hs2 reason]
        have hne : t.id ≠ Task.id ({ task with status := TaskStatus.failed, failure_reason := some reason }) := by
          have h5 : Task.id ({ task with status := TaskStatus.failed, failure_reason := some reason }) = task.id := rfl
          rw [h5, dictGet_key hg2]
          intro heq
          rw [← heq, hget] at hg2
          injection hg2 with h7
          rw [← h7] at hs2
          exact htni hs2
        rcases hdet : detach_from_agent ({ m with tasks := (dictSet Task.id m.tasks
            ({ task with status := TaskStatus.failed, failure_reason := some reason })) })
            id task.assigned_agent false with ⟨m2, res2⟩
        have hm2 : dictGet Task.id m2.tasks t.id = some t := by
          have htd := tasks_detach ({ m with tasks := (dictSet Task.id m.tasks
            ({ task with status := TaskStatus.failed, failure_reason := some reason })) })
            id task.assigned_agent false
          rw [hdet] at htd
          rw [htd]
          show dictGet Task.id (dictSet Task.id m.tasks _) t.id = some t
          rw [dictGet_dictSet_ne _ _ _ hne]
          exact hget
        cases res2 with
        | error e => exact hm2
        | ok u2 => exact hm2
      · rw [fail_task_not_in_progress hg2 hs2 reason]
        exact hget
  · -- submit_task with a different id
    intro u hneu
    cases hs : submit_task_store m u with
    | none => rw [submit_store_none hs]; exact hget
    | some m1 =>
      simp only [submit_task, hs]
      rcases hq : _process_task_queue m1 with ⟨m2, res⟩
      have hm1 : dictGet Task.id m1.tasks t.id = some t := by
        rw [(submit_store_some hs).1]
        rw [dictGet_dictSet_ne _ _ _ (fun hh => hneu hh.symm)]
        exact hget
      have hm2 : dictGet Task.id m2.tasks t.id = some t := by
        have := drain_preserves_nonpending htns hm1
        rwa [hq] at this
      cases res with
      | error e => exact hm2
      | ok u2 => exact hm2
  · -- remove_agent of an agent not holding the id
    intro agent_id agent hag hnot
    rw [remove_agent_present hag]
    rcases hgo : remove_agent_go agent_id 0 agent.current_tasks.length m with ⟨m2, res⟩
    have hm2 : dictGet Task.id m2.tasks t.id = some t := by
      have := remove_go_preserves_entry agent_id agent.current_tasks.length 0 hget
        (fun a2 h2 => by
          rw [hag] at h2
          injection h2 with h7
          rw [← h7]
          exact hnot)
      rwa [hgo] at this
    cases res with
    | error e => exact hm2
    | ok u2 => exact hm2

/-- Witness for the amended C5 statement at the reachable state `nDone`:
the terminal entry `u1` survives a `complete_task` and a `fail_task`
call on another id, and a `submit_task` of a different task. -/
theorem C5_terminal_never_left_witness :
    dictGet Task.id ((complete_task nDone "zz" none).1).tasks u1Completed.id
      = some u1Completed ∧
    dictGet Task.id ((fail_task nDone "zz" none).1).tasks u1Completed.id
      = some u1Completed ∧
    dictGet Task.id ((submit_task nDone (mkTask "w9" "w" ["x"] 1 [])).1).tasks
      u1Completed.id = some u1Completed :=
  ⟨(C5_terminal_never_left_amended nDone u1Completed (by decide)
      (Or.inl (by decide))).1 "zz" none,
   (C5_terminal_never_left_amended nDone u1Completed (by decide)
      (Or.inl (by decide))).2.1 "zz" none,
   (C5_terminal_never_left_amended nDone u1Completed (by decide)
      (Or.inl (by decide))).2.2.1 (mkTask "w9" "w" ["x"] 1 []) (by decide)⟩

/-! ## Claim C7 -/

theorem process_queue_go_ok :
    ∀ (q acc : List String) {m : Manager},
      (∀ tid ∈ q, (dictGet Task.id m.tasks tid).isSome) →
      (process_queue_go m q acc).2 = .ok () := by
  intro q
  induction q with
  | nil => intro acc m _; rfl
  | cons tid rest ih =>
    intro acc m h
    cases hget : dictGet Task.id m.tasks tid with
    | none =>
      have := h tid (List.mem_cons_self _ _)
      rw [hget] at this
      cases this
    | some task =>
      by_cases hst : task.status ≠ TaskStatus.pending
      · simp only [process_queue_go, hget, if_pos hst]
        exact ih _ (fun u hu => h u (List.mem_cons_of_mem _ hu))
      · simp only [process_queue_go, hget, if_neg hst]
        cases hpick : (assign_strategy m task (_get_available_agents m)).1 with
        | some ag =>
          simp only [hpick]
          apply ih
          intro u hu
          have hu' := h u (List.mem_cons_of_mem _ hu)
          unfold _assign_task_to_agent
          rw [tasks_emit]
          exact dictGet_isSome_dictSet _ _ _ _ hu'
        | none =>
          simp only [hpick]
          exact ih _ (fun u hu => h u (List.mem_cons_of_mem _ hu))

theorem process_queue_go_processed (q : List String) :
    ∀ (acc : List String) (m : Manager), ∃ extra,
      (process_queue_go m q acc).1.2 = acc ++ extra ∧ List.Sublist extra q := by
  induction q with
  | nil => intro acc m; exact ⟨[], by simp [process_queue_go], List.Sublist.refl _⟩
  | cons tid rest ih =>
    intro acc m
    cases hget : dictGet Task.id m.tasks tid with
    | none =>
      refine ⟨[], ?_, List.nil_sublist _⟩
      simp [process_queue_go, hget]
    | some task =>
      by_cases hst : task.status ≠ TaskStatus.pending
      · simp only [process_queue_go, hget, if_pos hst]
        rcases ih (acc ++ [tid]) m with ⟨extra, he, hs⟩
        exact ⟨tid :: extra, by rw [he]; simp, List.Sublist.cons₂ _ hs⟩
      · simp only [process_queue_go, hget, if_neg hst]
        cases hpick : (assign_strategy m task (_get_available_agents m)).1 with
        | some ag =>
          simp only [hpick]
          rcases ih (acc ++ [tid]) (_assign_task_to_agent
            { m with rrIndex := (assign_strategy m task (_get_available_agents m)).2 }
            task ag) with ⟨extra, he, hs⟩
          exact ⟨tid :: extra, by rw [he]; simp, List.Sublist.cons₂ _ hs⟩
        | none =>
          simp only [hpick]
          rcases ih acc { m with rrIndex :=
            (assign_strategy m task (_get_available_agents m)).2 } with ⟨extra, he, hs⟩
          exact ⟨extra, he, List.Sublist.cons _ hs⟩

theorem process_task_queue_ok {m : Manager}
    (h : ∀ tid ∈ m.task_queue, (dictGet Task.id m.tasks tid).isSome) :
    (_process_task_queue m).2 = .ok () := by
  unfold _process_task_queue
  rcases hgo : process_queue_go m m.task_queue [] with ⟨⟨m', processed⟩, res⟩
  have hok := process_queue_go_ok m.task_queue [] h
  rw [hgo] at hok
  cases res with
  | error e => cases hok
  | ok u =>
    cases u
    dsimp only
    obtain ⟨extra, hpe, hsub⟩ := process_queue_go_processed m.task_queue [] m
    rw [hgo] at hpe
    have hq' : m'.task_queue = m.task_queue := by
      have := queue_process_queue_go_eq m m.task_queue []
      rw [hgo] at this
      exact this
    have hsub' : List.Sublist processed m'.task_queue := by
      rw [hq']
      have : processed = extra := by simpa using hpe
      rw [this]
      exact hsub
    rcases removeAll_ok_of_sublist hsub' with ⟨r, hr⟩
    rw [hr]

theorem go_preserves_isSome (q : List String) :
    ∀ (acc : List String) {m : Manager} (k : String),
      (dictGet Task.id m.tasks k).isSome →
      (dictGet Task.id ((process_queue_go m q acc).1.1).tasks k).isSome := by
  induction q with
  | nil => intro acc m k hk; exact hk
  | cons tid rest ih =>
    intro acc m k hk
    cases hget : dictGet Task.id m.tasks tid with
    | none => simp only [process_queue_go, hget]; exact hk
    | some task =>
      by_cases hst : task.status ≠ TaskStatus.pending
      · simp only [process_queue_go, hget, if_pos hst]
        exact ih _ _ hk
      · simp only [process_queue_go, hget, if_neg hst]
        cases hpick : (assign_strategy m task (_get_available_agents m)).1 with
        | some ag =>
          simp only [hpick]
          apply ih
          unfold _assign_task_to_agent
          rw [tasks_emit]
          exact dictGet_isSome_dictSet _ _ _ _ hk
        | none =>
          simp only [hpick]
          exact ih _ _ hk

theorem drain_preserves_isSome {m : Manager} {k : String}
    (hk : (dictGet Task.id m.tasks k).isSome) :
    (dictGet Task.id ((_process_task_queue m).1).tasks k).isSome := by
  rw [tasks_process_task_queue]
  exact go_preserves_isSome m.task_queue [] k hk

/-- C7: `submit_task` is an admission gate.  In every reachable state:
if some dependency id is absent from the registry or its entry is not
`completed`, the call returns false and the whole state — registry and
queue included — is exactly what it was (the task leaves no trace);
if every dependency is present and `completed` (vacuously so for the
same task re-submitted once its dependencies cleared), the call returns
true, the entry for the task's id is the submitted task, and the id was
appended to the tail of the pending queue before the drain ran (after
the drain the id is still in the registry). -/
theorem C7_submit_dependency_gate (m : Manager) (hr : Reachable m) (t : Task) :
    ((¬ ∀ d ∈ t.dependencies, ∃ u, dictGet Task.id m.tasks d = some u ∧
        u.status = TaskStatus.completed) → submit_task m t = (m, .ok false)) ∧
    ((∀ d ∈ t.dependencies, ∃ u, dictGet Task.id m.tasks d = some u ∧
        u.status = TaskStatus.completed) →
      (submit_task m t).2 = .ok true ∧
      ∃ m1, submit_task_store m t = some m1 ∧
        m1.task_queue = m.task_queue ++ [t.id] ∧
        dictGet Task.id m1.tasks t.id = some t ∧
        (dictGet Task.id ((submit_task m t).1).tasks t.id).isSome) := by
  have hiff : (t.dependencies.all (fun dep_id =>
      match dictGet Task.id m.tasks dep_id with
      | some dep => dep.status == TaskStatus.completed
      | none => false) = true) ↔
      (∀ d ∈ t.dependencies, ∃ u, dictGet Task.id m.tasks d = some u ∧
        u.status = TaskStatus.completed) := by
    rw [List.all_eq_true]
    constructor
    · intro hall d hd
      have := hall d hd
      cases hu : dictGet Task.id m.tasks d with
      | none => rw [hu] at this; cases this
      | some u =>
        rw [hu] at this
        exact ⟨u, rfl, eq_of_beq this⟩
    · intro hall d hd
      rcases hall d hd with ⟨u, hu, hc⟩
      rw [hu]
      exact beq_iff_eq.mpr hc
  constructor
  · intro hbad
    have hP : ¬ (t.dependencies.all (fun dep_id =>
        match dictGet Task.id m.tasks dep_id with
        | some dep => dep.status == TaskStatus.completed
        | none => false) = true) := fun hh => hbad (hiff.mp hh)
    have hs : submit_task_store m t = none := by
      unfold submit_task_store
      rw [if_neg hP]
    exact submit_store_none hs
  · intro hmet
    have hP := hiff.mpr hmet
    have hs : submit_task_store m t = some (_emit_event
        ({ m with tasks := dictSet Task.id m.tasks t
                  task_queue := m.task_queue ++ [t.id] })
        "task_submitted" [("task_id", some t.id)]) := by
      unfold submit_task_store
      rw [if_pos hP]
    have hm1q : (_emit_event
        ({ m with tasks := dictSet Task.id m.tasks t
                  task_queue := m.task_queue ++ [t.id] })
        "task_submitted" [("task_id", some t.id)]).task_queue
        = m.task_queue ++ [t.id] := rfl
    have hm1t : dictGet Task.id (_emit_event
        ({ m with tasks := dictSet Task.id m.tasks t
                  task_queue := m.task_queue ++ [t.id] })
        "task_submitted" [("task_id", some t.id)]).tasks t.id = some t := by
      rw [tasks_emit]
      exact dictGet_dictSet_self Task.id m.tasks t
    have hqids : ∀ tid ∈ (_emit_event
        ({ m with tasks := dictSet Task.id m.tasks t
                  task_queue := m.task_queue ++ [t.id] })
        "task_submitted" [("task_id", some t.id)]).task_queue,
        (dictGet Task.id (_emit_event
          ({ m with tasks := dictSet Task.id m.tasks t
                    task_queue := m.task_queue ++ [t.id] })
          "task_submitted" [("task_id", some t.id)]).tasks tid).isSome := by
      intro tid htid
      rw [hm1q] at htid
      rw [tasks_emit]
      rcases List.mem_append.mp htid with htid | htid
      · exact dictGet_isSome_dictSet _ _ _ _ ((inv_reachable hr).2.2 tid htid)
      · have heq : tid = t.id := List.mem_singleton.mp htid
        subst heq
        rw [dictGet_dictSet_self Task.id m.tasks t]
        rfl
    simp only [submit_task, hs]
    have hdok := process_task_queue_ok hqids
    rcases hq : _process_task_queue (_emit_event
        ({ m with tasks := dictSet Task.id m.tasks t
                  task_queue := m.task_queue ++ [t.id] })
        "task_submitted" [("task_id", some t.id)]) with ⟨m2, res⟩
    rw [hq] at hdok
    cases res with
    | error e => cases hdok
    | ok u =>
      refine ⟨rfl, ⟨_, rfl, hm1q, hm1t, ?_⟩⟩
      have := drain_preserves_isSome (by rw [hm1t]; rfl)
      rw [hq] at this
      exact this

/-- Witness for C7 at the reachable state `nB`: a task depending on the
missing id `zzz` is rejected with the state unchanged. -/
theorem C7_submit_dependency_gate_witness :
    submit_task nB (mkTask "t9" "d" [] 1 ["zzz"]) = (nB, .ok false) := by
  apply (C7_submit_dependency_gate nB reachable_nB (mkTask "t9" "d" [] 1 ["zzz"])).1
  intro hall
  rcases hall "zzz" (by decide) with ⟨u, hu, _⟩
  have hnone : dictGet Task.id nB.tasks "zzz" = none := by decide
  rw [hnone] at hu
  cases hu

/-! ## Claim C8 -/

/-- C8: in every reachable state, every registered agent with positive
capacity holds at most `max_concurrent_tasks` tasks: assignment only
picks from `_get_available_agents` (active and strictly under capacity)
and appends exactly one task id. -/
theorem C8_capacity_invariant (m : Manager) (h : Reachable m) (a : Agent)
    (ha : a ∈ m.agents) (hmax : 1 ≤ a.max_concurrent_tasks) :
    a.current_tasks.length ≤ a.max_concurrent_tasks :=
  (inv_reachable h).2.1 a ha

/-- Witness for C8 at the reachable state `mT2`: agent `a1` holds two
tasks against a capacity of two. -/
theorem C8_capacity_invariant_witness :
    a1Loaded ∈ mT2.agents ∧ 1 ≤ a1Loaded.max_concurrent_tasks ∧
      a1Loaded.current_tasks.length ≤ a1Loaded.max_concurrent_tasks :=
  ⟨by decide, by decide,
    C8_capacity_invariant mT2 reachable_mT2 a1Loaded (by decide) (by decide)⟩

/-! ## Claim C9 -/

theorem update_metrics_step (a : Agent) (b : Bool) (T S : Nat) (r : ℚ)
    (hpm : a.performance_metrics =
      { total_tasks := some T, successful_tasks := some S, success_rate := some r }) :
    (_update_agent_metrics a b).performance_metrics =
      { total_tasks := some (T + 1)
        successful_tasks := some (S + (if b then 1 else 0))
        success_rate := some (((S + (if b then 1 else 0) : Nat) : ℚ) / ((T + 1 : Nat) : ℚ)) } := by
  unfold _update_agent_metrics
  rw [hpm]
  have hpos : (0 : Nat) < T + 1 := Nat.succ_pos T
  simp [hpos]

theorem update_metrics_init (a : Agent) (b : Bool)
    (hpm : a.performance_metrics = {}) :
    (_update_agent_metrics a b).performance_metrics =
      { total_tasks := some 1
        successful_tasks := some (if b then 1 else 0)
        success_rate := some (((if b then 1 else 0 : Nat) : ℚ) / ((1 : Nat) : ℚ)) } := by
  unfold _update_agent_metrics
  rw [hpm]
  simp

theorem record_outcomes_from (l : List Bool) :
    ∀ (a : Agent) (T S : Nat), a.performance_metrics =
      { total_tasks := some T, successful_tasks := some S
        success_rate := some ((S : ℚ) / (T : ℚ)) } →
    (record_outcomes a l).performance_metrics =
      { total_tasks := some (T + l.length)
        successful_tasks := some (S + l.count true)
        success_rate := some (((S + l.count true : Nat) : ℚ) / ((T + l.length : Nat) : ℚ)) } := by
  induction l with
  | nil => intro a T S hpm; exact hpm
  | cons b l ih =>
    intro a T S hpm
    have hstep := update_metrics_step a b T S _ hpm
    have hrec := ih (_update_agent_metrics a b) (T + 1) (S + (if b then 1 else 0)) hstep
    show (record_outcomes (_update_agent_metrics a b) l).performance_metrics = _
    rw [hrec]
    have hT : T + 1 + l.length = T + (b :: l).length := by
      simp [List.length_cons]
      omega
    have hS : S + (if b then 1 else 0) + l.count true = S + (b :: l).count true := by
      cases b <;> simp [List.count_cons] <;> omega
    rw [hT, hS]

theorem count_true_add_count_false (l : List Bool) :
    l.count true + l.count false = l.length := by
  induction l with
  | nil => rfl
  | cons b l ih => cases b <;> simp [List.count_cons] <;> omega

/-- C9: folding the metrics update over any sequence of `N` recorded
successes and `M` recorded failures (in any order), starting from a
freshly registered agent, yields `total_tasks = N + M`,
`successful_tasks = N` and `success_rate = N / (N + M)` as exact
division (modelling Python's float quotient as a rational), with the
rate reading `0.0` (the `.get` default the strategies use) when
`N + M = 0`; the guarded division never divides by zero since the
divisor at every recompute is the just-incremented total. -/
theorem C9_metrics_counters (id name : String) (role : AgentRole)
    (caps : List String) (mx : Nat) (act : Bool) (outcomes : List Bool) :
    ((record_outcomes (mkAgent id name role caps mx act)
        outcomes).performance_metrics.total_tasks.getD 0
      = outcomes.count true + outcomes.count false) ∧
    ((record_outcomes (mkAgent id name role caps mx act)
        outcomes).performance_metrics.successful_tasks.getD 0
      = outcomes.count true) ∧
    ((record_outcomes (mkAgent id name role caps mx act)
        outcomes).performance_metrics.success_rate.getD 0
      = if outcomes.count true + outcomes.count false = 0 then 0
        else ((outcomes.count true : Nat) : ℚ)
          / ((outcomes.count true + outcomes.count false : Nat) : ℚ)) := by
  cases outcomes with
  | nil => exact ⟨rfl, rfl, rfl⟩
  | cons b l =>
    have hinit := update_metrics_init (mkAgent id name role caps mx act) b rfl
    have hinit' : (_update_agent_metrics (mkAgent id name role caps mx act)
        b).performance_metrics =
        { total_tasks := some (0 + 1), successful_tasks := some (0 + (if b then 1 else 0))
          success_rate := some (((0 + (if b then 1 else 0) : Nat) : ℚ) / ((0 + 1 : Nat) : ℚ)) } := by
      rw [hinit]
      norm_num
    have hrec := record_outcomes_from l (_update_agent_metrics
        (mkAgent id name role caps mx act) b) (0 + 1) (0 + (if b then 1 else 0)) hinit'
    have hshow : (record_outcomes (mkAgent id name role caps mx act)
        (b :: l)).performance_metrics =
        { total_tasks := some (0 + 1 + l.length)
          successful_tasks := some (0 + (if b then 1 else 0) + l.count true)
          success_rate := some (((0 + (if b then 1 else 0) + l.count true : Nat) : ℚ)
            / ((0 + 1 + l.length : Nat) : ℚ)) } := hrec
    have hT : 0 + 1 + l.length = (b :: l).count true + (b :: l).count false := by
      have := count_true_add_count_false (b :: l)
      simp [List.length_cons] at this ⊢
      omega
    have hS : 0 + (if b then 1 else 0) + l.count true = (b :: l).count true := by
      cases b <;> simp [List.count_cons] <;> omega
    have hnz : (b :: l).count true + (b :: l).count false ≠ 0 := by
      rw [← hT]
      omega
    rw [hshow, hT, hS]
    refine ⟨rfl, rfl, ?_⟩
    rw [if_neg hnz]
    rfl

/-! ## Claim C10 -/

theorem runHandlers_fst (beh : HandlerBehavior) (ev : Event) :
    ∀ hs : List Nat, (runHandlers beh ev hs).map Prod.fst = hs := by
  intro hs
  induction hs with
  | nil => rfl
  | cons h rest ih => simp [runHandlers, ih]

theorem runHandlers_apply (beh : HandlerBehavior) (ev : Event) :
    ∀ hs : List Nat, ∀ p ∈ runHandlers beh ev hs, p.2 = beh p.1 ev := by
  intro hs
  induction hs with
  | nil => intro p hp; cases hp
  | cons h rest ih =>
    intro p hp
    rcases List.mem_cons.mp hp with rfl | hp
    · rfl
    · exact ih p hp

/-- C10: delivering an event invokes exactly the handlers registered for
that kind, once each and in registration order (`add_event_handler`
appends at the tail), each invocation being that handler applied to this
event — so one handler raising has no effect on the others' invocations
— and the publisher's loop is total, never propagating a handler's
exception; handlers registered for other kinds are not invoked. -/
theorem C10_event_delivery (b : EventBus) (beh : HandlerBehavior)
    (event_type : String) (data : List (String × Option String)) :
    ((emit_trace b beh event_type data).map Prod.fst =
      ((dictGet Prod.fst b.event_handlers event_type).map Prod.snd).getD []) ∧
    (∀ p ∈ emit_trace b beh event_type data, p.2 = beh p.1 (event_type, data)) ∧
    (∀ ty h, (dictGet Prod.fst (add_event_handler b ty h).event_handlers ty).map
        Prod.snd =
      some (((dictGet Prod.fst b.event_handlers ty).map Prod.snd).getD [] ++ [h])) := by
  refine ⟨?_, ?_, ?_⟩
  · unfold emit_trace
    cases hget : dictGet Prod.fst b.event_handlers event_type with
    | none => rfl
    | some entry => exact runHandlers_fst beh (event_type, data) entry.2
  · unfold emit_trace
    cases hget : dictGet Prod.fst b.event_handlers event_type with
    | none => intro p hp; cases hp
    | some entry => exact runHandlers_apply beh (event_type, data) entry.2
  · intro ty h
    unfold add_event_handler
    have hself := dictGet_dictSet_self Prod.fst b.event_handlers
      (ty, ((dictGet Prod.fst b.event_handlers ty).map Prod.snd).getD [] ++ [h])
    rw [hself]
    rfl

/-- Witness for C10 on the demonstration bus: handler 0 raises, yet both
handlers for `task_failed` are invoked, in registration order, and
handler 2 (registered for another kind) is not. -/
theorem C10_event_delivery_witness :
    (emit_trace demoBus demoBeh "task_failed" []).map Prod.fst = [0, 1] := by
  have h := (C10_event_delivery demoBus demoBeh "task_failed" []).1
  rw [h]
  decide

/-! ## Claim C6 -/

theorem foldl_append_mono {f : List String → Task → List String}
    (hf : ∀ q t, f q t = q ∨ f q t = q ++ [t.id]) :
    ∀ (ts : List Task) (q : List String) (x : String), x ∈ q → x ∈ ts.foldl f q := by
  intro ts
  induction ts with
  | nil => intro q x hx; exact hx
  | cons t ts ih =>
    intro q x hx
    simp only [List.foldl_cons]
    apply ih
    rcases hf q t with h | h <;> rw [h]
    · exact hx
    · exact List.mem_append.mpr (Or.inl hx)

theorem dep_step_choice (m : Manager) (cid : String) (q : List String) (task : Task) :
    (fun q task =>
      if cid ∈ task.dependencies ∧ task.status = TaskStatus.pending ∧ task.id ∉ q then
        if task.dependencies.all (fun dep_id =>
            match dictGet Task.id m.tasks dep_id with
            | some dep => dep.status == TaskStatus.completed
            | none => true) then
          q ++ [task.id]
        else q
      else q) q task = q ∨
    (fun q task =>
      if cid ∈ task.dependencies ∧ task.status = TaskStatus.pending ∧ task.id ∉ q then
        if task.dependencies.all (fun dep_id =>
            match dictGet Task.id m.tasks dep_id with
            | some dep => dep.status == TaskStatus.completed
            | none => true) then
          q ++ [task.id]
        else q
      else q) q task = q ++ [task.id] := by
  dsimp only
  by_cases h1 : cid ∈ task.dependencies ∧ task.status = TaskStatus.pending ∧ task.id ∉ q
  · rw [if_pos h1]
    by_cases h2 : (task.dependencies.all (fun dep_id =>
        match dictGet Task.id m.tasks dep_id with
        | some dep => dep.status == TaskStatus.completed
        | none => true)) = true
    · rw [if_pos h2]; exact Or.inr rfl
    · rw [if_neg h2]; exact Or.inl rfl
  · rw [if_neg h1]; exact Or.inl rfl

theorem dep_step_has (m : Manager) (cid : String) (q : List String) (Y : Task)
    (hdep : cid ∈ Y.dependencies) (hpend : Y.status = TaskStatus.pending)
    (hall : (Y.dependencies.all (fun dep_id =>
        match dictGet Task.id m.tasks dep_id with
        | some dep => dep.status == TaskStatus.completed
        | none => true)) = true) :
    Y.id ∈ (fun q task =>
      if cid ∈ task.dependencies ∧ task.status = TaskStatus.pending ∧ task.id ∉ q then
        if task.dependencies.all (fun dep_id =>
            match dictGet Task.id m.tasks dep_id with
            | some dep => dep.status == TaskStatus.completed
            | none => true) then
          q ++ [task.id]
        else q
      else q) q Y := by
  dsimp only
  by_cases hq : Y.id ∈ q
  · by_cases h1 : cid ∈ Y.dependencies ∧ Y.status = TaskStatus.pending ∧ Y.id ∉ q
    · rw [if_pos h1, if_pos hall]
      exact List.mem_append.mpr (Or.inl hq)
    · rw [if_neg h1]
      exact hq
  · rw [if_pos ⟨hdep, hpend, hq⟩, if_pos hall]
    exact List.mem_append.mpr (Or.inr (List.mem_singleton.mpr rfl))

/-- The dependent-processing pass enqueues a qualifying dependent (or
finds it already in the queue — either way it is queued afterwards). -/
theorem dep_enqueues {m : Manager} (cid : String) {Y : Task}
    (hmem : Y ∈ m.tasks) (hdep : cid ∈ Y.dependencies)
    (hpend : Y.status = TaskStatus.pending)
    (hall : (Y.dependencies.all (fun dep_id =>
        match dictGet Task.id m.tasks dep_id with
        | some dep => dep.status == TaskStatus.completed
        | none => true)) = true) :
    Y.id ∈ (_process_dependent_tasks m cid).task_queue := by
  unfold _process_dependent_tasks
  dsimp only
  have main : ∀ (ts : List Task) (q : List String), Y ∈ ts →
      Y.id ∈ ts.foldl (fun q task =>
        if cid ∈ task.dependencies ∧ task.status = TaskStatus.pending ∧ task.id ∉ q then
          if task.dependencies.all (fun dep_id =>
              match dictGet Task.id m.tasks dep_id with
              | some dep => dep.status == TaskStatus.completed
              | none => true) then
            q ++ [task.id]
          else q
        else q) q := by
    intro ts
    induction ts with
    | nil => intro q hY; cases hY
    | cons t ts ih =>
      intro q hY
      rw [List.foldl_cons]
      rcases List.mem_cons.mp hY with rfl | hY
      · exact foldl_append_mono (dep_step_choice m cid) ts _ _
          (dep_step_has m cid q Y hdep hpend hall)
      · exact ih _ hY
  exact main m.tasks m.task_queue hmem

/-- A queue walk that first passes over non-pending entries and then
meets the pending task `Y`, for which the strategy picks `a`, leaves
`Y`'s registry entry assigned to `a` and in progress. -/
theorem go_assigns {Y : Task} {a : Agent} :
    ∀ (pre acc : List String) {m : Manager} (post : List String),
      (∀ tid ∈ pre, ∃ u, dictGet Task.id m.tasks tid = some u ∧
        u.status ≠ TaskStatus.pending) →
      dictGet Task.id m.tasks Y.id = some Y →
      Y.status = TaskStatus.pending →
      (assign_strategy m Y (_get_available_agents m)).1 = some a →
      dictGet Task.id ((process_queue_go m (pre ++ Y.id :: post) acc).1.1).tasks Y.id
        = some { Y with assigned_agent := some a.id, status := TaskStatus.in_progress } := by
  intro pre
  induction pre with
  | nil =>
    intro acc m post _ hY hYp hstrat
    have hst' : ¬ (Y.status ≠ TaskStatus.pending) := fun hh => hh hYp
    simp only [List.nil_append, process_queue_go, hY, if_neg hst', hstrat]
    have hnew : dictGet Task.id ((_assign_task_to_agent
        { m with rrIndex := (assign_strategy m Y (_get_available_agents m)).2 } Y a).tasks)
        Y.id = some ({ Y with assigned_agent := some a.id, status := TaskStatus.in_progress }) := by
      unfold _assign_task_to_agent
      rw [tasks_emit]
      have h5 : Task.id ({ Y with assigned_agent := some a.id, status := TaskStatus.in_progress }) = Y.id := rfl
      have := dictGet_dictSet_self Task.id m.tasks
        ({ Y with assigned_agent := some a.id, status := TaskStatus.in_progress })
      rw [h5] at this
      exact this
    exact go_preserves_nonpending (by intro hh; cases hh) post _ hnew
  | cons p pre ih =>
    intro acc m post hpre hY hYp hstrat
    rcases hpre p (List.mem_cons_self _ _) with ⟨u, hu, hns⟩
    simp only [List.cons_append, process_queue_go, hu, if_pos hns]
    exact ih _ post (fun tid htid => hpre tid (List.mem_cons_of_mem _ htid)) hY hYp hstrat

/-- Walking the queue either leaves a pending entry exactly as it was
(and then never marks it processed), or assigns it, making it
in-progress. -/
theorem assign_writes_entry (m : Manager) (task : Task) (ag : Agent) :
    dictGet Task.id ((_assign_task_to_agent m task ag).tasks) task.id
      = some ({ task with assigned_agent := some ag.id, status := TaskStatus.in_progress }) := by
  unfold _assign_task_to_agent
  rw [tasks_emit]
  have h5 : Task.id ({ task with assigned_agent := some ag.id, status := TaskStatus.in_progress }) = task.id := rfl
  have := dictGet_dictSet_self Task.id m.tasks
    ({ task with assigned_agent := some ag.id, status := TaskStatus.in_progress })
  rw [h5] at this
  exact this

theorem assign_preserves_other (m : Manager) (task : Task) (ag : Agent)
    {k : String} {t : Task} (hk : k ≠ task.id)
    (hm : dictGet Task.id m.tasks k = some t) :
    dictGet Task.id ((_assign_task_to_agent m task ag).tasks) k = some t := by
  unfold _assign_task_to_agent
  rw [tasks_emit]
  rw [dictGet_dictSet_ne]
  · exact hm
  · have h5 : Task.id ({ task with assigned_agent := some ag.id, status := TaskStatus.in_progress }) = task.id := rfl
    rw [h5]
    exact hk

/-- Walking the queue either leaves a pending entry exactly as it was
(and then never marks it processed), or leaves it in progress. -/
theorem go_pending_outcome {Y : Task} (hYp : Y.status = TaskStatus.pending) :
    ∀ (q acc : List String) {m : Manager},
      dictGet Task.id m.tasks Y.id = some Y →
      ((dictGet Task.id ((process_queue_go m q acc).1.1).tasks Y.id = some Y ∧
        (Y.id ∈ (process_queue_go m q acc).1.2 → Y.id ∈ acc)) ∨
      (∃ u, dictGet Task.id ((process_queue_go m q acc).1.1).tasks Y.id = some u ∧
        u.status = TaskStatus.in_progress)) := by
  intro q
  induction q with
  | nil => intro acc m hm; exact Or.inl ⟨hm, fun h => h⟩
  | cons tid rest ih =>
    intro acc m hm
    cases hget : dictGet Task.id m.tasks tid with
    | none =>
      simp only [process_queue_go, hget]
      exact Or.inl ⟨hm, fun h => h⟩
    | some task =>
      have hkey : task.id = tid := dictGet_key hget
      by_cases hst : task.status ≠ TaskStatus.pending
      · have hne : tid ≠ Y.id := by
          intro heq
          rw [heq, hm] at hget
          injection hget with h7
          apply hst
          rw [← h7]
          exact hYp
        simp only [process_queue_go, hget, if_pos hst]
        rcases ih (acc ++ [tid]) hm with ⟨h1, h2⟩ | h
        · refine Or.inl ⟨h1, fun hmem => ?_⟩
          rcases List.mem_append.mp (h2 hmem) with h | h
          · exact h
          · exact absurd (List.mem_singleton.mp h).symm hne
        · exact Or.inr h
      · simp only [process_queue_go, hget, if_neg hst]
        cases hpick : (assign_strategy m task (_get_available_agents m)).1 with
        | some ag =>
          simp only [hpick]
          by_cases hid : tid = Y.id
          · have hw := assign_writes_entry
              { m with rrIndex := (assign_strategy m task (_get_available_agents m)).2 }
              task ag
            rw [hkey, hid] at hw
            refine Or.inr ⟨_, go_preserves_nonpending ?_ rest _ hw, ?_⟩
            · intro hh
              cases hh
            · rfl
          · have hm2 : dictGet Task.id ((_assign_task_to_agent
                { m with rrIndex := (assign_strategy m task (_get_available_agents m)).2 }
                task ag).tasks) Y.id = some Y := by
              apply assign_preserves_other
              · rw [hkey]
                exact fun hh => hid hh.symm
              · exact hm
            rcases ih (acc ++ [tid]) hm2 with ⟨h1, h2⟩ | h
            · refine Or.inl ⟨h1, fun hmem => ?_⟩
              rcases List.mem_append.mp (h2 hmem) with h | h
              · exact h
              · exact absurd (List.mem_singleton.mp h).symm hid
            · exact Or.inr h
        | none =>
          simp only [hpick]
          exact ih acc hm


/-- Drain-level packaging of `go_pending_outcome`: a pending, queued
entry is afterwards either in progress or still pending and still
queued. -/
theorem drain_pending_outcome {Y : Task} (hYp : Y.status = TaskStatus.pending)
    {m : Manager} (hm : dictGet Task.id m.tasks Y.id = some Y)
    (hq : Y.id ∈ m.task_queue) :
    ∃ u, dictGet Task.id ((_process_task_queue m).1).tasks Y.id = some u ∧
      (u.status = TaskStatus.in_progress ∨
        (u = Y ∧ Y.id ∈ ((_process_task_queue m).1).task_queue)) := by
  unfold _process_task_queue
  rcases hgo : process_queue_go m m.task_queue [] with ⟨⟨m', processed⟩, res⟩
  have hout := go_pending_outcome hYp m.task_queue [] hm
  rw [hgo] at hout
  have hq' : m'.task_queue = m.task_queue := by
    have := queue_process_queue_go_eq m m.task_queue []
    rw [hgo] at this
    exact this
  cases res with
  | error e =>
    dsimp only
    rcases hout with ⟨h1, _⟩ | ⟨u, hu, hs⟩
    · exact ⟨Y, h1, Or.inr ⟨rfl, by rw [hq']; exact hq⟩⟩
    · exact ⟨u, hu, Or.inl hs⟩
  | ok u0 =>
    cases u0
    dsimp only
    cases hrm : removeAll m'.task_queue processed with
    | error e =>
      rcases hout with ⟨h1, _⟩ | ⟨u, hu, hs⟩
      · exact ⟨Y, h1, Or.inr ⟨rfl, by rw [hq']; exact hq⟩⟩
      · exact ⟨u, hu, Or.inl hs⟩
    | ok qf =>
      rcases hout with ⟨h1, h2⟩ | ⟨u, hu, hs⟩
      · refine ⟨Y, h1, Or.inr ⟨rfl, ?_⟩⟩
        show Y.id ∈ qf
        refine removeAll_mem_of_not_mem hrm Y.id (by rw [hq']; exact hq) ?_
        intro hmem
        exact absurd (h2 hmem) (List.not_mem_nil _)
      · exact ⟨u, hu, Or.inl hs⟩

/-- C6: completing a task `X` (in progress, detachment succeeding)
enqueues every registry task `Y` that lists `X` among its dependencies,
is still pending, and whose entire dependency set is completed in the
post-completion registry; the drain then runs in the same call, so `Y`
ends the call either in progress, or still pending and still queued —
and whenever the strategy finds an eligible agent for `Y` at the moment
the drain reaches it (formalised: the entries ahead of `Y` in the queue
are non-pending and the strategy applied to the post-enqueue state
returns an agent `a`), `Y`'s entry is in progress, assigned to `a`, when
`complete_task` returns. -/
theorem C6_complete_unblocks_dependents
    (m : Manager) (X : String) (res : Option String) (xt Y : Task) (m2 : Manager)
    (hX : dictGet Task.id m.tasks X = some xt)
    (hXs : xt.status = TaskStatus.in_progress)
    (hdet : detach_from_agent ({ m with tasks := (dictSet Task.id m.tasks
        ({ xt with status := TaskStatus.completed, result := res })) })
        X xt.assigned_agent true = (m2, .ok ()))
    (hYne : Y.id ≠ X)
    (hYget : dictGet Task.id m.tasks Y.id = some Y)
    (hYdep : X ∈ Y.dependencies)
    (hYpend : Y.status = TaskStatus.pending)
    (hYnq : Y.id ∉ m.task_queue)
    (hdeps : ∀ d ∈ Y.dependencies, ∃ u,
      dictGet Task.id m2.tasks d = some u ∧ u.status = TaskStatus.completed) :
    (Y.id ∈ (_process_dependent_tasks
        (_emit_event m2 "task_completed" [("task_id", some X)]) X).task_queue) ∧
    (∃ u, dictGet Task.id ((complete_task m X res).1).tasks Y.id = some u ∧
      (u.status = TaskStatus.in_progress ∨
        (u = Y ∧ Y.id ∈ ((complete_task m X res).1).task_queue))) ∧
    (∀ (a : Agent) (pre post : List String),
      (_process_dependent_tasks
        (_emit_event m2 "task_completed" [("task_id", some X)]) X).task_queue
        = pre ++ Y.id :: post →
      (∀ tid ∈ pre, ∃ u, dictGet Task.id (_process_dependent_tasks
          (_emit_event m2 "task_completed" [("task_id", some X)]) X).tasks tid
        = some u ∧ u.status ≠ TaskStatus.pending) →
      (assign_strategy (_process_dependent_tasks
          (_emit_event m2 "task_completed" [("task_id", some X)]) X) Y
        (_get_available_agents (_process_dependent_tasks
          (_emit_event m2 "task_completed" [("task_id", some X)]) X))).1 = some a →
      dictGet Task.id ((complete_task m X res).1).tasks Y.id
        = some ({ Y with assigned_agent := some a.id, status := TaskStatus.in_progress })) := by
  have hm2t : m2.tasks = dictSet Task.id m.tasks
      ({ xt with status := TaskStatus.completed, result := res }) := by
    have := tasks_detach ({ m with tasks := (dictSet Task.id m.tasks
        ({ xt with status := TaskStatus.completed, result := res })) })
        X xt.assigned_agent true
    rw [hdet] at this
    exact this
  have hY2 : dictGet Task.id m2.tasks Y.id = some Y := by
    rw [hm2t]
    rw [dictGet_dictSet_ne]
    · exact hYget
    · have h5 : Task.id ({ xt with status := TaskStatus.completed, result := res }) = xt.id := rfl
      rw [h5, dictGet_key hX]
      exact hYne
  have hYD : dictGet Task.id (_process_dependent_tasks
      (_emit_event m2 "task_completed" [("task_id", some X)]) X).tasks Y.id
      = some Y := hY2
  have hall : (Y.dependencies.all (fun dep_id =>
      match dictGet Task.id (_emit_event m2 "task_completed"
        [("task_id", some X)]).tasks dep_id with
      | some dep => dep.status == TaskStatus.completed
      | none => true)) = true := by
    rw [List.all_eq_true]
    intro d hd
    rcases hdeps d hd with ⟨u, hu, hc⟩
    rw [tasks_emit, hu]
    exact beq_iff_eq.mpr hc
  have henq : Y.id ∈ (_process_dependent_tasks
      (_emit_event m2 "task_completed" [("task_id", some X)]) X).task_queue := by
    apply dep_enqueues X (dictGet_mem (show dictGet Task.id
      (_emit_event m2 "task_completed" [("task_id", some X)]).tasks Y.id = some Y
      from hY2)) hYdep hYpend hall
  refine ⟨henq, ?_, ?_⟩
  · rw [complete_task_in_progress hX hXs res, hdet]
    dsimp only
    rcases hq : _process_task_queue (_process_dependent_tasks
        (_emit_event m2 "task_completed" [("task_id", some X)]) X) with ⟨m4, res4⟩
    have hout := drain_pending_outcome hYpend hYD henq
    rw [hq] at hout
    cases res4 with
    | error e => exact hout
    | ok u4 => exact hout
  · intro a pre post hsplit hpre hstrat
    rw [complete_task_in_progress hX hXs res, hdet]
    dsimp only
    rcases hq : _process_task_queue (_process_dependent_tasks
        (_emit_event m2 "task_completed" [("task_id", some X)]) X) with ⟨m4, res4⟩
    have hfin : dictGet Task.id m4.tasks Y.id
        = some ({ Y with assigned_agent := some a.id, status := TaskStatus.in_progress }) := by
      have htq := tasks_process_task_queue (_process_dependent_tasks
        (_emit_event m2 "task_completed" [("task_id", some X)]) X)
      rw [hq] at htq
      rw [htq]
      have := go_assigns pre [] post hpre hYD hYpend hstrat
      rw [← hsplit] at this
      exact this
    cases res4 with
    | error e => exact hfin
    | ok u4 => exact hfin

/-- Witness for C6 on the state `c6M`: completing `tx` enqueues its
dependent `ty` and the drain assigns `ty` to the freed agent `w1`
within the same call. -/
theorem C6_complete_unblocks_dependents_witness :
    (dictGet Task.id ((complete_task c6M "tx" none).1).tasks "ty").map
      (fun t => (t.status, t.assigned_agent))
      = some (TaskStatus.in_progress, some "w1") := by
  have hdet : detach_from_agent ({ c6M with tasks := (dictSet Task.id c6M.tasks
      ({ c6X with status := TaskStatus.completed, result := none }) ) })
      "tx" c6X.assigned_agent true = (c6m2, .ok ()) := rfl
  have hdeps : ∀ d ∈ c6Y.dependencies, ∃ u,
      dictGet Task.id c6m2.tasks d = some u ∧ u.status = TaskStatus.completed := by
    intro d hd
    have hd' : d = "tx" := List.mem_singleton.mp hd
    subst hd'
    exact ⟨c6XDone, by decide, rfl⟩
  have hsome : (assign_strategy c6mD c6Y (_get_available_agents c6mD)).1.isSome = true := by
    decide
  obtain ⟨aW, haW⟩ : ∃ a, (assign_strategy c6mD c6Y
      (_get_available_agents c6mD)).1 = some a := Option.isSome_iff_exists.mp hsome
  have hmapped : ((assign_strategy c6mD c6Y
      (_get_available_agents c6mD)).1).map Agent.id = some "w1" := by decide
  rw [haW] at hmapped
  have hidW : aW.id = "w1" := Option.some.inj hmapped
  have h := C6_complete_unblocks_dependents c6M "tx" none c6X c6Y c6m2
    (by decide) rfl hdet (by decide) (by decide) (by decide) rfl
    (by decide) hdeps
  have hc := h.2.2 aW [] [] (by decide)
    (fun tid htid => absurd htid (List.not_mem_nil _)) haW
  rw [show ("ty" : String) = c6Y.id from rfl, hc]
  simp [hidW]

end Workforce
